import Mathlib

/-!
Verification development for the DEVS simulation kernel in
src/include/devs/lib.hpp (with the later revision in src/unnamed/part_002).

Modelling conventions (shallow embedding):

* The C++ code is generic over the Time type (a template parameter);
  every operation the kernel performs on times is a comparison, an addition,
  a subtraction or an absolute value, and no decision depends on division or
  on density of the time domain.  We instantiate the embedding with the
  integers, on which all of these operations are exact and computable by
  kernel reduction, so concrete runs evaluate inside proofs.
* An Event's action is a C++ closure.  Every action created by this program
  only reads the current calendar time and its own model's state, mutates model
  state, calls Calendar::schedule_event and invokes cancel callbacks.  We model
  an action as a value of an abstract type alpha together with an
  interpretation function that returns the updated model world plus the ordered
  list of schedule/cancel requests the closure performs.
* The shared cancellation flag of an Event (a shared_ptr<bool>) is modelled by
  a numeric identity, Ev.id: the calendar state keeps the list of identities
  whose flag has been set.  Fresh identities are allocated from a counter at
  event-creation time.
* std::priority_queue with EventSorter (l.time > r.time) pops a minimal-time
  event.  The popping order among equal times is unspecified in C++; we model
  the heap as a list in insertion order with popMin extracting the first
  minimal-time element.
* C++ exceptions (PastSchedule, BadSelect) abort the whole run.  We model this
  with an err flag in the calendar state; every operation freezes the state
  once err is set, mirroring the unwind.
* Loops whose iteration count is bounded by the heap size are written with an
  explicit fuel argument equal to the heap length, so every definition is
  structurally recursive and computable by the kernel; lemmas prove the fuel
  suffices.  The only loop with no such bound (the concurrent firing loop of
  Calendar::execute_concurrent_events, which need not terminate in C++ when a
  model has a zero time-advance forever) takes the fuel as an argument and
  reports whether it completed.
* Listener notifications carry no semantic effect other than being observed,
  so each listener list is modelled as the trace of notifications it received
  (schedTrace for event_scheduled, timeAdvTrace for time_advanced, fired for
  executing_event_action; the executing_event_action notification happens
  exactly once per executed action so the fired trace also records which
  event actions were executed).
-/

namespace Devs

/-- Logical time, instantiating the C++ Time template parameter. -/
abbrev Time := ℤ

/-- Devs::_impl::Event.  The action closure is a value of the abstract action
type alpha; id models the identity of the shared cancellation flag allocated
in the Event constructor. -/
structure Ev (α : Type) where
  time : Time
  act : α
  model : String
  descr : String
  id : Nat
  deriving DecidableEq, Repr

/-- One primitive effect of an action closure: a call to
Calendar::schedule_event (the event's flag identity is allocated when the
request is processed), or an invocation of a cancel callback obtained from
Event::get_cancel_callback. -/
inductive Req (α : Type) where
  | sched (time : Time) (act : α) (model : String) (descr : String)
  | cancel (id : Nat)
  deriving DecidableEq, Repr

/-- Devs::_impl::Calendar, together with the model world sigma that the
actions close over, the fresh-flag counter, the error flag standing for a
thrown exception, and the observer traces. -/
structure CalSt (α σ : Type) where
  heap : List (Ev α)
  cancelled : List Nat
  time : Time
  endTime : Time
  eps : Time
  nextId : Nat
  world : σ
  err : Bool
  fired : List (Ev α)
  schedTrace : List (Time × Ev α)
  timeAdvTrace : List (Time × Time)
  deriving DecidableEq

/-- Interpretation of action closures: given the action, the current calendar
time, the current fresh-flag counter and the model world, produce the updated
world and the ordered list of schedule/cancel calls the closure performs. -/
abbrev Interp (α σ : Type) := α → Time → Nat → σ → σ × List (Req α)

/-- Extract the first minimal-time event from the list (the top of the
priority queue) together with the remaining events. -/
def popMin {α : Type} : List (Ev α) → Option (Ev α × List (Ev α))
  | [] => none
  | e :: es =>
    match popMin es with
    | none => some (e, [])
    | some (m, rest) => if e.time ≤ m.time then some (e, es) else some (m, e :: rest)

/-- Calendar::pop_cancelled_events on the raw event list: pop the top of the
heap while it is cancelled.  The fuel argument bounds the iteration count;
fuel = length is always enough. -/
def popCancelledAux {α : Type} (cancelled : List Nat) : Nat → List (Ev α) → List (Ev α)
  | 0, l => l
  | fuel + 1, l =>
    match popMin l with
    | none => l
    | some (e, rest) =>
      if e.id ∈ cancelled then popCancelledAux cancelled fuel rest else l

/-- Calendar::pop_cancelled_events. -/
def pop_cancelled_events {α σ : Type} (s : CalSt α σ) : CalSt α σ :=
  { s with heap := popCancelledAux s.cancelled s.heap.length s.heap }

/-- Calendar::next_pending_event: pop cancelled events, then pop and return
the live top of the heap, if any. -/
def next_pending_event {α σ : Type} (s : CalSt α σ) : Option (Ev α) × CalSt α σ :=
  let s' := pop_cancelled_events s
  match popMin s'.heap with
  | none => (none, s')
  | some (e, rest) => (some e, { s' with heap := rest })

/-- Calendar::next_pending_concurrent_event: like next_pending_event but only
pops the top when its time is within eps of the given time (the
is_next_pending_event_concurrent check).  Cancelled events popped during the
check remain discarded even when the answer is none, as in C++. -/
def next_pending_concurrent_event {α σ : Type} (t : Time) (s : CalSt α σ) :
    Option (Ev α) × CalSt α σ :=
  let s' := pop_cancelled_events s
  match popMin s'.heap with
  | none => (none, s')
  | some (e, rest) =>
    if |e.time - t| ≤ s.eps then (some e, { s' with heap := rest }) else (none, s')

/-- The while-loop collecting pending events concurrent with time t (used both
by Calendar::next and by the replenishment loop of
Calendar::execute_concurrent_events).  Fuel bounds iterations; each successful
iteration strictly shrinks the heap, so fuel = heap length suffices. -/
def gatherConcurrentAux {α σ : Type} (t : Time) : Nat → CalSt α σ → List (Ev α) × CalSt α σ
  | 0, s => ([], s)
  | fuel + 1, s =>
    match next_pending_concurrent_event t s with
    | (none, s') => ([], s')
    | (some e, s') =>
      let (es, s'') := gatherConcurrentAux t fuel s'
      (e :: es, s'')

/-- The concurrent-collection while loop with sufficient fuel. -/
def gatherConcurrent {α σ : Type} (t : Time) (s : CalSt α σ) : List (Ev α) × CalSt α σ :=
  gatherConcurrentAux t s.heap.length s

/-- Calendar::next: pop the next live event and collect all further pending
events whose time is within eps of its time. -/
def calendar_next {α σ : Type} (s : CalSt α σ) : List (Ev α) × CalSt α σ :=
  match next_pending_event s with
  | (none, s') => ([], s')
  | (some e, s') =>
    let (es, s'') := gatherConcurrent e.time s'
    (e :: es, s'')

/-- Calendar::schedule_event: throws (err) when the event's time is strictly
before the current time, otherwise pushes the event and notifies the
event_scheduled listeners. -/
def schedule_event {α σ : Type} (e : Ev α) (s : CalSt α σ) : CalSt α σ :=
  if s.err then s
  else if e.time < s.time then { s with err := true }
  else { s with heap := s.heap ++ [e], schedTrace := s.schedTrace ++ [(s.time, e)] }

/-- Process one primitive effect of an action: a schedule_event call (the
Event constructor allocates a fresh cancellation flag, modelled by consuming
the counter) or a cancel-callback invocation (setting the shared flag). -/
def processReq {α σ : Type} (s : CalSt α σ) : Req α → CalSt α σ
  | Req.cancel i => if s.err then s else { s with cancelled := s.cancelled ++ [i] }
  | Req.sched t a m d =>
    if s.err then s
    else schedule_event ⟨t, a, m, d, s.nextId⟩ { s with nextId := s.nextId + 1 }

/-- Process the effects of an action in order. -/
def processReqs {α σ : Type} (s : CalSt α σ) (reqs : List (Req α)) : CalSt α σ :=
  reqs.foldl processReq s

/-- Calendar::execute_event_action: notify the executing_event_action
listeners (the fired trace) and run the action closure. -/
def execute_event_action {α σ : Type} (interp : Interp α σ) (e : Ev α) (s : CalSt α σ) :
    CalSt α σ :=
  let s1 := { s with fired := s.fired ++ [e] }
  let (w', reqs) := interp e.act s1.time s1.nextId s1.world
  processReqs { s1 with world := w' } reqs

/-- Calendar::select_index: index of the name returned by select, none when the
returned name is not in the list (the BadSelect error). -/
def select_index (names : List String) (select : List String → String) : Option Nat :=
  names.findIdx? (fun n => n = select names)

/-- Calendar::advance_time: when the new time differs from the current one by
more than eps, notify the time_advanced listeners and assign it; otherwise do
nothing (neither notification nor assignment). -/
def advance_time {α σ : Type} (t : Time) (s : CalSt α σ) : CalSt α σ :=
  if |t - s.time| > s.eps then
    { s with timeAdvTrace := s.timeAdvTrace ++ [(s.time, t)], time := t }
  else s

/-- One iteration of the while loop of Calendar::execute_concurrent_events:
select an index (FIFO position 0 when the group is a singleton), skip the
event when its flag was set by an earlier concurrent event, otherwise fire it
and move newly scheduled events concurrent with the fired event's time from
the heap into the group; finally erase the processed event.  The names vector
of the C++ code always equals the model names of the group, so it is
recomputed from the group here. -/
def roundStep {α σ : Type} (interp : Interp α σ) (select : List String → String)
    (G : List (Ev α)) (s : CalSt α σ) : List (Ev α) × CalSt α σ :=
  if s.err then (G, s)
  else
    match G with
    | [] => ([], s)
    | _ =>
      let oidx := if 1 < G.length then select_index (G.map (fun e => e.model)) select
                  else some 0
      match oidx with
      | none => (G, { s with err := true })
      | some idx =>
        match G[idx]? with
        | none => (G, { s with err := true })
        | some e =>
          if e.id ∈ s.cancelled then (G.eraseIdx idx, s)
          else
            let s1 := execute_event_action interp e s
            if s1.err then (G, s1)
            else
              let (pulled, s2) := gatherConcurrent e.time s1
              ((G ++ pulled).eraseIdx idx, s2)

/-- Calendar::execute_concurrent_events: the while loop over the concurrent
group.  The C++ loop need not terminate (a model may keep scheduling
zero-delay successors), so the iteration count is bounded by fuel; the Bool
result records whether the loop ran to completion within the fuel. -/
def execute_concurrent_events {α σ : Type} (interp : Interp α σ)
    (select : List String → String) : Nat → List (Ev α) → CalSt α σ → CalSt α σ × Bool
  | _, [], s => (s, true)
  | 0, _ :: _, s => (s, false)
  | fuel + 1, G@(_ :: _), s =>
    if s.err then (s, true)
    else
      let (G', s') := roundStep interp select G s
      execute_concurrent_events interp select fuel G' s'

/-- Calendar::execute_next. -/
def execute_next {α σ : Type} (interp : Interp α σ) (select : List String → String)
    (fuel : Nat) (s : CalSt α σ) : Bool × CalSt α σ :=
  if s.err then (false, s)
  else
    match calendar_next s with
    | ([], s') => (false, s')
    | (e :: es, s') =>
      if e.time > s'.endTime then (false, advance_time s'.endTime s')
      else
        let s2 := advance_time e.time s'
        (true, (execute_concurrent_events interp select fuel (e :: es) s2).1)

/-- Devs::Model::Compound::fifo_selector: the first submitted name. -/
def fifo_selector (names : List String) : String := names.headD ""

end Devs

namespace Devs

/-- A point in the execution of the kernel: the calendar state plus the group
of concurrent events currently being processed by
Calendar::execute_concurrent_events (empty between rounds). -/
structure Machine (α σ : Type) where
  cal : CalSt α σ
  group : List (Ev α)
  deriving DecidableEq

/-- Small-step relation of the kernel: one observable instant to the next.
begin_round and the two finish constructors are the branches of
Calendar::execute_next before and instead of the concurrent loop; fire is one
iteration of the loop of Calendar::execute_concurrent_events. -/
inductive CalStep {α σ : Type} (interp : Interp α σ) (select : List String → String) :
    Machine α σ → Machine α σ → Prop where
  | begin_round {m : Machine α σ} {e : Ev α} {es : List (Ev α)} {s' : CalSt α σ} :
      m.group = [] → m.cal.err = false →
      calendar_next m.cal = (e :: es, s') → ¬ e.time > s'.endTime →
      CalStep interp select m ⟨advance_time e.time s', e :: es⟩
  | finish_past_end {m : Machine α σ} {e : Ev α} {es : List (Ev α)} {s' : CalSt α σ} :
      m.group = [] → m.cal.err = false →
      calendar_next m.cal = (e :: es, s') → e.time > s'.endTime →
      CalStep interp select m ⟨advance_time s'.endTime s', []⟩
  | finish_empty {m : Machine α σ} {s' : CalSt α σ} :
      m.group = [] → m.cal.err = false →
      calendar_next m.cal = ([], s') →
      CalStep interp select m ⟨s', []⟩
  | fire {m : Machine α σ} {G' : List (Ev α)} {s' : CalSt α σ} :
      m.group ≠ [] → m.cal.err = false →
      roundStep interp select m.group m.cal = (G', s') →
      CalStep interp select m ⟨s', G'⟩

/-- Reachability along kernel steps. -/
def Reach {α σ : Type} (interp : Interp α σ) (select : List String → String) :
    Machine α σ → Machine α σ → Prop :=
  Relation.ReflTransGen (CalStep interp select)

end Devs

namespace Devs

/-! The atomic-simulator layer: Devs::Model::Atomic together with the mutable
runtime data of Devs::_impl::AtomicImpl, and the interpretation of the action
closures this layer creates.  The model state, input and output types are
type parameters as in the C++ template. -/

/-- Devs::Model::Atomic.  The member s is the current state (the C++ code
mutates model_.s in place).  toStr models the stream operator << used by
AtomicImpl::state_to_str for pretty-printing states. -/
structure AtomicModel (X Y S : Type) where
  s : S
  delta_external : S → Time → X → S
  delta_internal : S → S
  out : S → Y
  ta : S → Time
  toStr : S → String

/-- The mutable members of Devs::_impl::AtomicImpl: the model (whose s field
is the current state), last_transition_time_ and the stored cancel callback
for the pending internal transition (modelled by the flag identity of the
event it cancels). -/
structure AtomicEntry (X Y S : Type) where
  model : AtomicModel X Y S
  last_transition_time : Time
  cancel_internal_transition : Option Nat

/-- Lookup in an association list keyed by model name. -/
def alookup {β : Type} : List (String × β) → String → Option β
  | [], _ => none
  | (k, v) :: r, n => if k = n then some v else alookup r n

/-- Replace the entry of the given model name. -/
def aupdate {β : Type} (l : List (String × β)) (n : String) (v : β) : List (String × β) :=
  l.map (fun p => if p.1 = n then (n, v) else p)

/-- The model world: the atomic simulators by name, the influencer wiring
(source name, target name, transformer composed with the Dynamic boxing, as
set up by CompoundImpl::connect_component_influencers via
input_from_influencer), the output-listener trace and the
state-transition-listener trace. -/
structure AWorld (X Y S : Type) where
  atomics : List (String × AtomicEntry X Y S)
  wires : List (String × String × (Y → X))
  outTrace : List (String × Time × Y)
  stTrace : List (String × Time × String × String)

/-- IOModel::state_transitioned as written in src/include/devs/lib.hpp:
notifies the state-transition listeners unconditionally. -/
def state_transitioned_lib (name : String) (now : Time) (prev : String) (next : String)
    (trace : List (String × Time × String × String)) :
    List (String × Time × String × String) :=
  trace ++ [(name, now, prev, next)]

/-- IOModel::state_transitioned as written in the later revision
src/unnamed/part_002: notifies the listeners only when the pretty-printed
previous and next states differ. -/
def state_transitioned_rev2 (name : String) (now : Time) (prev : String) (next : String)
    (trace : List (String × Time × String × String)) :
    List (String × Time × String × String) :=
  if prev ≠ next then trace ++ [(name, now, prev, next)] else trace

/-- The action closures created by the atomic layer: the internal-transition
action built by AtomicImpl::get_internal_transition_action, and the
input-delivering action built by IOModel::input_from_influencer and
IOModel::external_input, whose firing reaches AtomicImpl::input_listener. -/
inductive AAct (X : Type) where
  | internal (name : String)
  | input (name : String) (value : X) (src : String)
  deriving DecidableEq

/-- Interpretation of the atomic layer's action closures, mirroring
AtomicImpl.  For AAct.internal: internal_transition reads the output from the
pre-transition state, computes delta_internal, transition_state notifies the
listeners (lib.hpp revision), assigns the new state and the
last_transition_time; then output(out) runs the output listeners, which for
every influencer wire schedule an input-delivery event at the current time
(input_from_influencer); then schedule_internal_transition schedules the next
internal transition at current time + ta(new state) and stores its cancel
callback, whose flag identity is predicted from the counter (the wire events
consume one identity each, in order).  For AAct.input: input_listener first
invokes the stored cancel callback (if any), then external_transition applies
delta_external to the elapsed time since the last transition, then
schedule_internal_transition as above.  An action whose model name has no
atomic (impossible in a run) does nothing. -/
def atomicInterp {X Y S : Type} : Interp (AAct X) (AWorld X Y S) := fun a now nid w =>
  match a with
  | AAct.internal n =>
    match alookup w.atomics n with
    | none => (w, [])
    | some ent =>
      let out := ent.model.out ent.model.s
      let new_state := ent.model.delta_internal ent.model.s
      let prevStr := ent.model.toStr ent.model.s
      let nextStr := ent.model.toStr new_state
      let ent1 : AtomicEntry X Y S :=
        { model := { ent.model with s := new_state }
          last_transition_time := now
          cancel_internal_transition := ent.cancel_internal_transition }
      let myWires := w.wires.filter (fun wr => wr.1 = n)
      let inputReqs : List (Req (AAct X)) :=
        myWires.map (fun wr => Req.sched now (AAct.input wr.2.1 (wr.2.2 out) n) wr.2.1
          "influencer input")
      let tnext := now + ent1.model.ta ent1.model.s
      let ent2 := { ent1 with cancel_internal_transition := some (nid + myWires.length) }
      let w' : AWorld X Y S :=
        { atomics := aupdate w.atomics n ent2
          wires := w.wires
          outTrace := w.outTrace ++ [(n, now, out)]
          stTrace := state_transitioned_lib n now prevStr nextStr w.stTrace }
      (w', inputReqs ++ [Req.sched tnext (AAct.internal n) n "internal transition"])
  | AAct.input n x _src =>
    match alookup w.atomics n with
    | none => (w, [])
    | some ent =>
      let cancelReqs : List (Req (AAct X)) :=
        match ent.cancel_internal_transition with
        | some h => [Req.cancel h]
        | none => []
      let elapsed := now - ent.last_transition_time
      let new_state := ent.model.delta_external ent.model.s elapsed x
      let prevStr := ent.model.toStr ent.model.s
      let nextStr := ent.model.toStr new_state
      let ent1 : AtomicEntry X Y S :=
        { model := { ent.model with s := new_state }
          last_transition_time := now
          cancel_internal_transition := some nid }
      let tnext := now + ent1.model.ta ent1.model.s
      let w' : AWorld X Y S :=
        { atomics := aupdate w.atomics n ent1
          wires := w.wires
          outTrace := w.outTrace
          stTrace := state_transitioned_lib n now prevStr nextStr w.stTrace }
      (w', cancelReqs ++ [Req.sched tnext (AAct.internal n) n "internal transition"])

/-- The empty-name check of the IOModel constructor. -/
def ioModelCtorCheck (name : String) : Except String Unit :=
  if name = "" then Except.error "Model name should not be empty" else Except.ok ()

/-- Construction of Devs::_impl::AtomicImpl: the IOModel base constructor
(which rejects an empty name before anything else happens), value
initialization of last_transition_time_ to zero (not to the calendar's start
time), then schedule_internal_transition scheduling the first internal
transition at current time + ta(initial state) and storing its cancel
callback.  Returns the runtime entry and the schedule request. -/
def atomicInit {X Y S : Type} (name : String) (model : AtomicModel X Y S)
    (now : Time) (nid : Nat) :
    Except String (AtomicEntry X Y S × List (Req (AAct X))) := do
  ioModelCtorCheck name
  let tnext := now + model.ta model.s
  let ent : AtomicEntry X Y S :=
    { model := model, last_transition_time := 0, cancel_internal_transition := some nid }
  Except.ok (ent, [Req.sched tnext (AAct.internal name) name "internal transition"])

/-- CompoundImpl::factories_to_components restricted to atomic component
factories: reject a component whose name collides with the compound's, and
construct each component in turn (each atomicInit consumes exactly one flag
identity for the internal transition it schedules). -/
def buildComponents {X Y S : Type} (compound : String) (now : Time) :
    List (String × AtomicModel X Y S) → Nat →
    Except String (List (String × AtomicEntry X Y S) × List (Req (AAct X)))
  | [], _ => Except.ok ([], [])
  | (cname, m) :: rest, nid =>
    if cname = compound then
      Except.error ("Component and compound model name collision: " ++ cname)
    else do
      let (ent, reqs) ← atomicInit cname m now nid
      let (ents, reqs') ← buildComponents compound now rest (nid + 1)
      Except.ok ((cname, ent) :: ents, reqs ++ reqs')

/-- Construction of Devs::_impl::CompoundImpl (with atomic components): the
IOModel base constructor runs first and rejects an empty name before any
component is constructed or any event scheduled; then factories_to_components
rejects an empty component map and constructs the components.  The influencer
wiring is carried separately in AWorld.wires. -/
def compoundInit {X Y S : Type} (name : String)
    (components : List (String × AtomicModel X Y S)) (now : Time) (nid : Nat) :
    Except String (List (String × AtomicEntry X Y S) × List (Req (AAct X))) := do
  ioModelCtorCheck name
  if components.isEmpty then
    Except.error ("Compound model " ++ name ++ " has no components")
  else
    buildComponents name now components nid

/-- Construction of a simulation (Devs::Simulator with a compound root of
atomic components): the calendar is created with start_time, end_time and
epsilon; the root model's construction schedules every component's first
internal transition; afterwards external inputs are scheduled (each is an
input-delivery event as created by IOModel::external_input).  A construction
error is modelled by the err flag. -/
def initSystem {X Y S : Type} (cname : String) (start endT eps : Time)
    (specs : List (String × AtomicModel X Y S))
    (wires : List (String × String × (Y → X)))
    (inputs : List (Time × String × X)) : CalSt (AAct X) (AWorld X Y S) :=
  let base : CalSt (AAct X) (AWorld X Y S) :=
    { heap := [], cancelled := [], time := start, endTime := endT, eps := eps,
      nextId := 0, world := ⟨[], wires, [], []⟩, err := false,
      fired := [], schedTrace := [], timeAdvTrace := [] }
  match compoundInit cname specs start 0 with
  | Except.error _ => { base with err := true }
  | Except.ok (ents, reqs) =>
    let s1 := processReqs { base with world := ⟨ents, wires, [], []⟩ } reqs
    inputs.foldl
      (fun s inp => processReq s (Req.sched inp.1 (AAct.input inp.2.1 inp.2.2 inp.2.1)
        inp.2.1 "external input")) s1

end Devs

namespace Devs

/-! Auxiliary definitions used by the statements and fixtures below.  All
remaining declarations after this section are theorems. -/

/-- Calendar state as produced by the Calendar constructor (no pending
events, no observers notified yet), generalized to an arbitrary starting heap
and cancelled set for stating properties mid-run. -/
def mkCal {α σ : Type} (heap : List (Ev α)) (cancelled : List Nat)
    (t endT eps : Time) (nid : Nat) (w : σ) : CalSt α σ :=
  { heap := heap, cancelled := cancelled, time := t, endTime := endT, eps := eps,
    nextId := nid, world := w, err := false, fired := [], schedTrace := [],
    timeAdvTrace := [] }

/-- Interpretation for action closures that do nothing (used to exercise the
calendar in isolation). -/
def unitInterp : Interp Unit Unit := fun _ _ _ w => (w, [])

/-- The events an effect list creates when processed with the given fresh-flag
counter (each schedule_event call consumes one identity). -/
def reqEvents {α : Type} : List (Req α) → Nat → List (Ev α)
  | [], _ => []
  | Req.cancel _ :: rs, nid => reqEvents rs nid
  | Req.sched t a m d :: rs, nid => ⟨t, a, m, d, nid⟩ :: reqEvents rs (nid + 1)

/-- The flags an effect list sets. -/
def reqCancels {α : Type} : List (Req α) → List Nat
  | [] => []
  | Req.cancel i :: rs => i :: reqCancels rs
  | Req.sched _ _ _ _ :: rs => reqCancels rs

/-- The number of schedule_event calls in an effect list. -/
def reqSchedCount {α : Type} : List (Req α) → Nat
  | [] => 0
  | Req.cancel _ :: rs => reqSchedCount rs
  | Req.sched _ _ _ _ :: rs => 1 + reqSchedCount rs

/-- The non-cancelled pending internal-transition events belonging to the
atomic named n, in the heap or in the concurrent group currently being
processed. -/
def pendingLiveInternals {X Y S : Type} [DecidableEq X]
    (m : Machine (AAct X) (AWorld X Y S)) (n : String) : List (Ev (AAct X)) :=
  (m.cal.heap ++ m.group).filter
    (fun e => decide (e.id ∉ m.cal.cancelled ∧ e.act = AAct.internal n))

/-- The single-pending-internal property: at this instant (unless the run has
aborted with an exception) every atomic has at most one non-cancelled pending
internal-transition event. -/
def SinglePendingInternal {X Y S : Type} [DecidableEq X]
    (m : Machine (AAct X) (AWorld X Y S)) : Prop :=
  m.cal.err = false → ∀ n, (pendingLiveInternals m n).length ≤ 1

/-- Strengthened kernel invariant from which SinglePendingInternal follows:
flag identities in use are below the counter, pairwise distinct, every live
internal-transition event's identity is the one stored in its atomic's cancel
member, and internal-transition events only name existing atomics. -/
structure KernelInv {X Y S : Type} [DecidableEq X]
    (s : CalSt (AAct X) (AWorld X Y S)) (G : List (Ev (AAct X))) : Prop where
  fresh : ∀ e ∈ s.heap ++ G, e.id < s.nextId
  cfresh : ∀ c ∈ s.cancelled, c < s.nextId
  nodup : ((s.heap ++ G).map (fun e => e.id)).Nodup
  hfresh : ∀ n ent, alookup s.world.atomics n = some ent →
    ∀ h, ent.cancel_internal_transition = some h → h < s.nextId
  pointing : ∀ n ent, alookup s.world.atomics n = some ent →
    ∀ e ∈ s.heap ++ G, e.act = AAct.internal n → e.id ∉ s.cancelled →
      ent.cancel_internal_transition = some e.id
  named : ∀ e ∈ s.heap ++ G, ∀ n, e.act = AAct.internal n →
    (alookup s.world.atomics n).isSome

/-! Concrete fixtures used in witnesses and counterexamples. -/

/-- A small atomic model over rational state, input and output: the internal
transition increments the state, the output is the pre-transition state, the
time advance is one. -/
def incModel : AtomicModel ℤ ℤ ℤ :=
  { s := 0
    delta_external := fun s _ x => s + x
    delta_internal := fun s => s + 1
    out := fun s => s
    ta := fun _ => 1
    toStr := fun q => toString q }

/-- An atomic model whose internal transition is the identity, so that the
pretty-printed previous and next states coincide. -/
def idModel : AtomicModel ℤ ℤ ℤ :=
  { s := 0
    delta_external := fun s _ _ => s
    delta_internal := fun s => s
    out := fun s => s
    ta := fun _ => 1
    toStr := fun q => toString q }

/-- An atomic model whose external transition stores the elapsed time it was
given, making the elapsed argument observable in the state. -/
def elapsedModel : AtomicModel ℤ ℤ ℤ :=
  { s := 0
    delta_external := fun _ e _ => e
    delta_internal := fun s => s
    out := fun s => s
    ta := fun _ => 1
    toStr := fun q => toString q }

/-- Runtime entry of a single just-constructed atomic: flag identity 0 for
the pending internal transition, last transition time zero. -/
def oneAtomicEntry (m : AtomicModel ℤ ℤ ℤ) : AtomicEntry ℤ ℤ ℤ :=
  { model := m, last_transition_time := 0, cancel_internal_transition := some 0 }

/-- World with the single atomic entry above under the name A. -/
def oneAtomicWorld (m : AtomicModel ℤ ℤ ℤ) : AWorld ℤ ℤ ℤ :=
  { atomics := [("A", oneAtomicEntry m)], wires := [], outTrace := [], stTrace := [] }

/-- Interpretation of a zero-delay style chain of actions used to probe the
concurrent replenishment loop: action k schedules the next link at the times
10, 20 and 9. -/
def chainInterp : Interp Nat Unit := fun k _ _ w =>
  (w, match k with
      | 1 => [Req.sched 10 2 "A" ""]
      | 2 => [Req.sched 20 3 "A" ""]
      | 3 => [Req.sched 9 4 "A" ""]
      | _ => [])

/-- Start state for the chain probe: one live event at time 0, epsilon 10. -/
def chainStart : CalSt Nat Unit := mkCal [⟨0, 1, "A", "", 0⟩] [] 0 1000 10 1 ()

/-- Scenario 5 of the spec: the only scheduled event (time 2) has been
cancelled through its handle; run window is 0 to 5 with epsilon 1. -/
def lonelyCancelled : CalSt Unit Unit :=
  mkCal [⟨2, (), "M", "", 0⟩] [0] 0 5 1 1 ()

/-- A calendar whose next live event exceeds end_time by at most epsilon while
the current time is already within epsilon of end_time. -/
def nearEndSt : CalSt Unit Unit :=
  mkCal [⟨51, (), "M", "", 0⟩] [] 49 50 1 1 ()

/-- A calendar whose next live event is within epsilon of the current time. -/
def nearNowSt : CalSt Unit Unit :=
  mkCal [⟨1, (), "M", "", 0⟩] [] 0 100 1 1 ()

/-- A machine state whose trace records one already-fired event and where that
event's flag identity has been set afterwards. -/
def firedThenCancelledM : Machine Unit Unit :=
  { cal := { heap := [], cancelled := [0], time := 3, endTime := 5, eps := 1,
             nextId := 1, world := (), err := false, fired := [⟨2, (), "M", "", 0⟩],
             schedTrace := [], timeAdvTrace := [] }
    group := [] }

/-- Initial machine of a one-atomic simulation used as a witness input. -/
def oneAtomicInit : Machine (AAct ℤ) (AWorld ℤ ℤ ℤ) :=
  { cal := initSystem "root" 0 10 1 [("A", incModel)] [] []
    group := [] }

/-- Frame predicate: the second state equals the first in every field except
(possibly) the heap. -/
def HeapOnly {α σ : Type} (s s' : CalSt α σ) : Prop :=
  s' = { s with heap := s'.heap }

end Devs


namespace Devs

theorem popMin_eq_none {α : Type} {l : List (Ev α)} (h : popMin l = none) : l = [] := by
  cases l with
  | nil => rfl
  | cons e es =>
    exfalso
    simp only [popMin] at h
    rcases h' : popMin es with _ | ⟨m, rest⟩ <;> rw [h'] at h
    · simp at h
    · by_cases hle : e.time ≤ m.time <;> simp [hle] at h

theorem popMin_perm {α : Type} {l rest : List (Ev α)} {e : Ev α}
    (h : popMin l = some (e, rest)) : l.Perm (e :: rest) := by
  induction l generalizing e rest with
  | nil => simp [popMin] at h
  | cons a as ih =>
    simp only [popMin] at h
    rcases h' : popMin as with _ | ⟨m, r⟩ <;> rw [h'] at h
    · simp at h
      obtain ⟨rfl, rfl⟩ := h
      rw [popMin_eq_none h']
    · by_cases hle : a.time ≤ m.time <;> simp [hle] at h <;> obtain ⟨rfl, rfl⟩ := h
      · exact List.Perm.refl _
      · exact ((ih h').cons a).trans (List.Perm.swap m a r)

theorem popMin_length {α : Type} {l rest : List (Ev α)} {e : Ev α}
    (h : popMin l = some (e, rest)) : l.length = rest.length + 1 := by
  simpa using (popMin_perm h).length_eq

theorem popMin_mem {α : Type} {l rest : List (Ev α)} {e : Ev α}
    (h : popMin l = some (e, rest)) : e ∈ l :=
  (popMin_perm h).mem_iff.mpr (List.mem_cons_self e rest)

end Devs

namespace Devs

theorem popCancelledAux_perm {α : Type} (c : List Nat) (fuel : Nat) (l : List (Ev α)) :
    ∃ dropped, l.Perm (dropped ++ popCancelledAux c fuel l) ∧ ∀ x ∈ dropped, x.id ∈ c := by
  induction fuel generalizing l with
  | zero => exact ⟨[], by simp [popCancelledAux], by simp⟩
  | succ n ih =>
    simp only [popCancelledAux]
    rcases h : popMin l with _ | ⟨e, rest⟩
    · exact ⟨[], by simp, by simp⟩
    · by_cases hc : e.id ∈ c
      · simp only [hc, if_true]
        obtain ⟨d, hd, hdc⟩ := ih rest
        refine ⟨e :: d, ?_, ?_⟩
        · exact (popMin_perm h).trans (hd.cons e)
        · intro x hx
          rcases List.mem_cons.mp hx with rfl | hx
          · exact hc
          · exact hdc x hx
      · simp only [hc, if_false]
        exact ⟨[], by simp, by simp⟩

theorem popCancelledAux_subset {α : Type} {c : List Nat} {fuel : Nat} {l : List (Ev α)}
    {x : Ev α} (hx : x ∈ popCancelledAux c fuel l) : x ∈ l := by
  obtain ⟨d, hd, _⟩ := popCancelledAux_perm c fuel l
  exact hd.mem_iff.mpr (List.mem_append.mpr (Or.inr hx))

theorem popCancelledAux_live_mem {α : Type} {c : List Nat} {fuel : Nat} {l : List (Ev α)}
    {x : Ev α} (hx : x ∈ l) (hlive : x.id ∉ c) : x ∈ popCancelledAux c fuel l := by
  obtain ⟨d, hd, hdc⟩ := popCancelledAux_perm c fuel l
  rcases List.mem_append.mp (hd.mem_iff.mp hx) with hxd | hxr
  · exact absurd (hdc x hxd) hlive
  · exact hxr

theorem popCancelledAux_length_le {α : Type} (c : List Nat) (fuel : Nat) (l : List (Ev α)) :
    (popCancelledAux c fuel l).length ≤ l.length := by
  obtain ⟨d, hd, _⟩ := popCancelledAux_perm c fuel l
  have := hd.length_eq
  simp only [List.length_append] at this
  omega

theorem popCancelledAux_top_live {α : Type} {c : List Nat} {fuel : Nat} {l : List (Ev α)}
    {e : Ev α} {r : List (Ev α)} (hfuel : l.length ≤ fuel)
    (h : popMin (popCancelledAux c fuel l) = some (e, r)) : e.id ∉ c := by
  induction fuel generalizing l with
  | zero =>
    have : l = [] := List.length_eq_zero.mp (Nat.le_zero.mp hfuel)
    subst this
    simp [popCancelledAux, popMin] at h
  | succ n ih =>
    simp only [popCancelledAux] at h
    rcases h' : popMin l with _ | ⟨e', rest⟩ <;> simp only [h'] at h
    · exact absurd h (by simp)
    · by_cases hc : e'.id ∈ c
      · rw [if_pos hc] at h
        have hlen : rest.length ≤ n := by
          have := popMin_length h'; omega
        exact ih hlen h
      · rw [if_neg hc] at h
        rw [h'] at h
        obtain ⟨rfl, rfl⟩ : e' = e ∧ rest = r := by simpa using h
        exact hc

end Devs

namespace Devs

theorem heapOnly_refl {α σ : Type} (s : CalSt α σ) : HeapOnly s s := rfl

theorem HeapOnly.trans {α σ : Type} {s s' s'' : CalSt α σ}
    (h1 : HeapOnly s s') (h2 : HeapOnly s' s'') : HeapOnly s s'' := by
  unfold HeapOnly at *
  rw [h1] at h2
  exact h2

theorem HeapOnly.fields {α σ : Type} {s s' : CalSt α σ} (h : HeapOnly s s') :
    s'.cancelled = s.cancelled ∧ s'.time = s.time ∧ s'.endTime = s.endTime ∧
    s'.eps = s.eps ∧ s'.nextId = s.nextId ∧ s'.world = s.world ∧ s'.err = s.err ∧
    s'.fired = s.fired ∧ s'.schedTrace = s.schedTrace ∧
    s'.timeAdvTrace = s.timeAdvTrace := by
  rw [h]
  exact ⟨rfl, rfl, rfl, rfl, rfl, rfl, rfl, rfl, rfl, rfl⟩

theorem pce_heapOnly {α σ : Type} (s : CalSt α σ) : HeapOnly s (pop_cancelled_events s) := rfl

theorem npe_heapOnly {α σ : Type} (s : CalSt α σ) :
    HeapOnly s (next_pending_event s).2 := by
  unfold next_pending_event
  rcases h : popMin (pop_cancelled_events s).heap with _ | ⟨e, rest⟩ <;> simp only [h]
  · exact pce_heapOnly s
  · exact (pce_heapOnly s).trans rfl

theorem npce_heapOnly {α σ : Type} (t : Time) (s : CalSt α σ) :
    HeapOnly s (next_pending_concurrent_event t s).2 := by
  unfold next_pending_concurrent_event
  rcases h : popMin (pop_cancelled_events s).heap with _ | ⟨e, rest⟩ <;> simp only [h]
  · exact pce_heapOnly s
  · split
    · exact (pce_heapOnly s).trans rfl
    · exact pce_heapOnly s

theorem gatherAux_heapOnly {α σ : Type} (t : Time) (fuel : Nat) (s : CalSt α σ) :
    HeapOnly s (gatherConcurrentAux t fuel s).2 := by
  induction fuel generalizing s with
  | zero => exact heapOnly_refl s
  | succ n ih =>
    simp only [gatherConcurrentAux]
    rcases h : next_pending_concurrent_event t s with ⟨o, s'⟩
    rcases o with _ | e <;> simp only
    · have := npce_heapOnly t s
      rw [h] at this
      exact this
    · have h1 : HeapOnly s s' := by
        have := npce_heapOnly t s
        rw [h] at this
        exact this
      exact h1.trans (ih s')

theorem gather_heapOnly {α σ : Type} (t : Time) (s : CalSt α σ) :
    HeapOnly s (gatherConcurrent t s).2 :=
  gatherAux_heapOnly t s.heap.length s

theorem calendar_next_heapOnly {α σ : Type} (s : CalSt α σ) :
    HeapOnly s (calendar_next s).2 := by
  unfold calendar_next
  rcases h : next_pending_event s with ⟨o, s'⟩
  have h1 : HeapOnly s s' := by
    have := npe_heapOnly s
    rw [h] at this
    exact this
  rcases o with _ | e <;> simp only
  · exact h1
  · rcases hg : gatherConcurrent e.time s' with ⟨es, s''⟩
    have h2 : HeapOnly s' s'' := by
      have := gather_heapOnly e.time s'
      rw [hg] at this
      exact this
    exact h1.trans h2

end Devs

namespace Devs

theorem processReq_frame {α σ : Type} (s : CalSt α σ) (r : Req α) :
    (processReq s r).time = s.time ∧ (processReq s r).endTime = s.endTime ∧
    (processReq s r).eps = s.eps ∧ (processReq s r).timeAdvTrace = s.timeAdvTrace ∧
    (processReq s r).fired = s.fired := by
  cases r <;> simp only [processReq, schedule_event] <;>
    (repeat' split) <;> simp

theorem processReqs_frame {α σ : Type} (s : CalSt α σ) (reqs : List (Req α)) :
    (processReqs s reqs).time = s.time ∧ (processReqs s reqs).endTime = s.endTime ∧
    (processReqs s reqs).eps = s.eps ∧
    (processReqs s reqs).timeAdvTrace = s.timeAdvTrace ∧
    (processReqs s reqs).fired = s.fired := by
  induction reqs generalizing s with
  | nil => exact ⟨rfl, rfl, rfl, rfl, rfl⟩
  | cons r rs ih =>
    obtain ⟨h1, h2, h3, h4, h5⟩ := processReq_frame s r
    obtain ⟨g1, g2, g3, g4, g5⟩ := ih (processReq s r)
    exact ⟨g1.trans h1, g2.trans h2, g3.trans h3, g4.trans h4, g5.trans h5⟩

theorem eea_frame {α σ : Type} (interp : Interp α σ) (e : Ev α) (s : CalSt α σ) :
    (execute_event_action interp e s).time = s.time ∧
    (execute_event_action interp e s).endTime = s.endTime ∧
    (execute_event_action interp e s).eps = s.eps ∧
    (execute_event_action interp e s).timeAdvTrace = s.timeAdvTrace := by
  unfold execute_event_action
  rcases hi : interp e.act s.time s.nextId s.world with ⟨w', reqs⟩
  simp only [hi]
  obtain ⟨h1, h2, h3, h4, _⟩ := processReqs_frame
    ({ s with fired := s.fired ++ [e], world := w' }) reqs
  exact ⟨h1, h2, h3, h4⟩

end Devs

namespace Devs

/-- Complete case analysis of one iteration of the concurrent firing loop. -/
theorem roundStep_cases {α σ : Type} (interp : Interp α σ)
    (select : List String → String) (G : List (Ev α)) (s : CalSt α σ) :
    (s.err = true ∧ roundStep interp select G s = (G, s)) ∨
    (s.err = false ∧ G = [] ∧ roundStep interp select G s = ([], s)) ∨
    (s.err = false ∧ G ≠ [] ∧
      (if 1 < G.length then select_index (G.map (fun e => e.model)) select
        else some 0) = none ∧
      roundStep interp select G s = (G, { s with err := true })) ∨
    (s.err = false ∧ G ≠ [] ∧ ∃ idx,
      (if 1 < G.length then select_index (G.map (fun e => e.model)) select
        else some 0) = some idx ∧ G[idx]? = none ∧
      roundStep interp select G s = (G, { s with err := true })) ∨
    (s.err = false ∧ G ≠ [] ∧ ∃ idx e,
      (if 1 < G.length then select_index (G.map (fun e => e.model)) select
        else some 0) = some idx ∧ G[idx]? = some e ∧ e.id ∈ s.cancelled ∧
      roundStep interp select G s = (G.eraseIdx idx, s)) ∨
    (s.err = false ∧ G ≠ [] ∧ ∃ idx e,
      (if 1 < G.length then select_index (G.map (fun e => e.model)) select
        else some 0) = some idx ∧ G[idx]? = some e ∧ e.id ∉ s.cancelled ∧
      (execute_event_action interp e s).err = true ∧
      roundStep interp select G s = (G, execute_event_action interp e s)) ∨
    (s.err = false ∧ G ≠ [] ∧ ∃ idx e,
      (if 1 < G.length then select_index (G.map (fun e => e.model)) select
        else some 0) = some idx ∧ G[idx]? = some e ∧ e.id ∉ s.cancelled ∧
      (execute_event_action interp e s).err = false ∧
      roundStep interp select G s =
        ((G ++ (gatherConcurrent e.time (execute_event_action interp e s)).1).eraseIdx idx,
          (gatherConcurrent e.time (execute_event_action interp e s)).2)) := by
  cases herr : s.err with
  | true =>
    left
    exact ⟨rfl, by unfold roundStep; rw [herr]; simp⟩
  | false =>
    right
    cases G with
    | nil =>
      left
      exact ⟨rfl, rfl, by unfold roundStep; rw [herr]; simp⟩
    | cons g gs =>
      right
      have hne : (g :: gs : List (Ev α)) ≠ [] := by simp
      have hrs : roundStep interp select (g :: gs) s =
          (match (if 1 < (g :: gs).length
              then select_index ((g :: gs).map (fun e => e.model)) select
              else some 0) with
          | none => ((g :: gs), { s with err := true })
          | some idx =>
            match (g :: gs)[idx]? with
            | none => ((g :: gs), { s with err := true })
            | some e =>
              if e.id ∈ s.cancelled then ((g :: gs).eraseIdx idx, s)
              else
                let s1 := execute_event_action interp e s
                if s1.err then ((g :: gs), s1)
                else
                  let p := gatherConcurrent e.time s1
                  (((g :: gs) ++ p.1).eraseIdx idx, p.2)) := by
        unfold roundStep
        rw [herr]
        simp
      rcases hsel : (if 1 < (g :: gs).length
          then select_index ((g :: gs).map (fun e => e.model)) select
          else some 0) with _ | idx
      · left
        simp only [hsel] at hrs
        exact ⟨rfl, hne, hsel, hrs⟩
      · right
        simp only [hsel] at hrs
        rcases hg : (g :: gs)[idx]? with _ | e
        · left
          simp only [hg] at hrs
          exact ⟨rfl, hne, idx, hsel, hg, hrs⟩
        · right
          simp only [hg] at hrs
          by_cases hc : e.id ∈ s.cancelled
          · left
            rw [if_pos hc] at hrs
            exact ⟨rfl, hne, idx, e, hsel, hg, hc, hrs⟩
          · right
            rw [if_neg hc] at hrs
            cases he1 : (execute_event_action interp e s).err with
            | true =>
              left
              simp only [he1, if_true] at hrs
              exact ⟨rfl, hne, idx, e, hsel, hg, hc, he1, hrs⟩
            | false =>
              right
              simp only [he1, Bool.false_eq_true, if_false] at hrs
              exact ⟨rfl, hne, idx, e, hsel, hg, hc, he1, hrs⟩

end Devs

namespace Devs

theorem roundStep_frame {α σ : Type} (interp : Interp α σ)
    (select : List String → String) (G : List (Ev α)) (s : CalSt α σ) :
    (roundStep interp select G s).2.time = s.time ∧
    (roundStep interp select G s).2.endTime = s.endTime ∧
    (roundStep interp select G s).2.eps = s.eps ∧
    (roundStep interp select G s).2.timeAdvTrace = s.timeAdvTrace := by
  rcases roundStep_cases interp select G s with
    ⟨_, hr⟩ | ⟨_, _, hr⟩ | ⟨_, _, _, hr⟩ | ⟨_, _, _, _, _, hr⟩ |
    ⟨_, _, _, _, _, _, _, hr⟩ | ⟨_, _, _, e, _, _, _, _, hr⟩ |
    ⟨_, _, _, e, _, _, _, _, hr⟩ <;> rw [hr]
  · exact ⟨rfl, rfl, rfl, rfl⟩
  · exact ⟨rfl, rfl, rfl, rfl⟩
  · exact ⟨rfl, rfl, rfl, rfl⟩
  · exact ⟨rfl, rfl, rfl, rfl⟩
  · exact ⟨rfl, rfl, rfl, rfl⟩
  · exact eea_frame interp e s
  · obtain ⟨h1, h2, h3, h4⟩ := eea_frame interp e s
    have hfields := (gather_heapOnly e.time (execute_event_action interp e s)).fields
    obtain ⟨_, g1, g2, g3, _, _, _, _, _, g4⟩ := hfields
    exact ⟨g1.trans h1, g2.trans h2, g3.trans h3, g4.trans h4⟩

theorem ece_frame {α σ : Type} (interp : Interp α σ) (select : List String → String)
    (fuel : Nat) (G : List (Ev α)) (s : CalSt α σ) :
    (execute_concurrent_events interp select fuel G s).1.time = s.time ∧
    (execute_concurrent_events interp select fuel G s).1.endTime = s.endTime ∧
    (execute_concurrent_events interp select fuel G s).1.eps = s.eps ∧
    (execute_concurrent_events interp select fuel G s).1.timeAdvTrace = s.timeAdvTrace := by
  induction fuel generalizing G s with
  | zero => cases G <;> exact ⟨rfl, rfl, rfl, rfl⟩
  | succ n ih =>
    cases G with
    | nil => exact ⟨rfl, rfl, rfl, rfl⟩
    | cons g gs =>
      simp only [execute_concurrent_events]
      split
      · exact ⟨rfl, rfl, rfl, rfl⟩
      rcases hr : roundStep interp select (g :: gs) s with ⟨G', s'⟩
      obtain ⟨h1, h2, h3, h4⟩ := roundStep_frame interp select (g :: gs) s
      rw [hr] at h1 h2 h3 h4
      obtain ⟨g1, g2, g3, g4⟩ := ih G' s'
      exact ⟨g1.trans h1, g2.trans h2, g3.trans h3, g4.trans h4⟩

end Devs

namespace Devs

/-- C6: Calendar::schedule_event raises PastSchedule exactly when the event's
time is strictly less than the current time (an event at exactly the current
time is accepted); on failure the calendar state is unchanged apart from the
thrown exception (in particular the heap and the current time), and on
success the event is appended to the heap and the event_scheduled observers
are notified. -/
theorem C6_schedule_event_contract {α σ : Type} (e : Ev α) (s : CalSt α σ)
    (h : s.err = false) :
    (e.time < s.time → schedule_event e s = { s with err := true }) ∧
    (¬ e.time < s.time →
      schedule_event e s =
        { s with heap := s.heap ++ [e], schedTrace := s.schedTrace ++ [(s.time, e)] }) := by
  constructor <;> intro hc <;> simp [schedule_event, h, hc]

/-- Witness for C6 at a concrete input: scheduling at exactly the current time
is accepted and appends the event. -/
theorem C6_schedule_event_contract_witness :
    ((2 : Time) < (2 : Time) →
      schedule_event (⟨2, (), "M", "d", 0⟩ : Ev Unit) (mkCal [] [] 2 5 1 0 ()) =
        { (mkCal [] [] 2 5 1 0 () : CalSt Unit Unit) with
            err := true }) ∧
    (¬ (2 : Time) < (2 : Time) →
      schedule_event (⟨2, (), "M", "d", 0⟩ : Ev Unit) (mkCal [] [] 2 5 1 0 ()) =
        { (mkCal [] [] 2 5 1 0 () : CalSt Unit Unit) with
            heap := [] ++ [⟨2, (), "M", "d", 0⟩]
            schedTrace := [] ++ [(2, ⟨2, (), "M", "d", 0⟩)] }) :=
  C6_schedule_event_contract ⟨2, (), "M", "d", 0⟩ (mkCal [] [] 2 5 1 0 ()) rfl

end Devs

namespace Devs

/-- C1 (amended): when execute_next returns false because the next live
event's time exceeds end_time, the current time is advanced to end_time only
when |end_time - time| > epsilon (otherwise it is left unchanged); when no
live pending events remain at all, execute_next returns false with the
current time unchanged, not advanced to end_time. -/
theorem C1_false_return_time {α σ : Type} (interp : Interp α σ)
    (select : List String → String) (fuel : Nat) (s : CalSt α σ)
    (h : s.err = false) (hf : (execute_next interp select fuel s).1 = false) :
    (execute_next interp select fuel s).2.time =
      if (calendar_next s).1.isEmpty = false ∧ |s.endTime - s.time| > s.eps
        then s.endTime else s.time := by
  unfold execute_next at hf ⊢
  rw [h] at hf ⊢
  simp only [Bool.false_eq_true, if_false] at hf ⊢
  rcases hcn : calendar_next s with ⟨G, s'⟩
  have hH : HeapOnly s s' := by
    have := calendar_next_heapOnly s
    rw [hcn] at this
    exact this
  obtain ⟨_, ht, hend, heps, _⟩ := hH.fields
  simp only [hcn] at hf ⊢
  cases G with
  | nil =>
    simp only [List.isEmpty_nil]
    simpa using ht
  | cons e es =>
    by_cases hgt : e.time > s'.endTime
    · simp only [hgt, if_true] at hf ⊢
      simp only [List.isEmpty_cons]
      unfold advance_time
      rw [hend, heps, ht]
      by_cases habs : |s.endTime - s.time| > s.eps
      · rw [if_pos habs, if_pos (by simpa using habs)]
      · rw [if_neg habs, if_neg (by simpa using habs)]
        exact ht
    · exfalso
      simp only [hgt, if_false] at hf
      exact Bool.true_eq_false.mp hf

end Devs

namespace Devs

/-- Counterexample to C1 as stated: in scenario 5 (the only scheduled event
was cancelled) execute_next returns false with the current time left at 0,
not advanced to end_time = 5; and when the next live event's time (51)
exceeds end_time (50) by at most epsilon while the current time (49) is
within epsilon of end_time, execute_next returns false with the time left at
49, not set to 50. -/
theorem C1_counterexample :
    ((execute_next unitInterp fifo_selector 10 lonelyCancelled).1 = false ∧
      (execute_next unitInterp fifo_selector 10 lonelyCancelled).2.time = 0 ∧
      lonelyCancelled.endTime = 5 ∧ (0 : Time) ≠ 5) ∧
    ((execute_next unitInterp fifo_selector 10 nearEndSt).1 = false ∧
      (execute_next unitInterp fifo_selector 10 nearEndSt).2.time = 49 ∧
      nearEndSt.endTime = 50 ∧ (49 : Time) ≠ 50) := by
  decide

/-- Witness for C1 at a concrete input: with end 50, current time 49, epsilon
1 and the next live event at 51, execute_next returns false leaving the time
at 49 (the difference to end_time is within epsilon). -/
theorem C1_false_return_time_witness :
    (execute_next unitInterp fifo_selector 10 nearEndSt).2.time =
      if (calendar_next nearEndSt).1.isEmpty = false ∧
          |nearEndSt.endTime - nearEndSt.time| > nearEndSt.eps
        then nearEndSt.endTime else nearEndSt.time :=
  C1_false_return_time unitInterp fifo_selector 10 nearEndSt (by decide) (by decide)

/-- C7 (amended): on a successful advance to a group whose earliest live
event has time t with t not exceeding end_time, the current time is set to t
and the time_advanced observers are notified exactly when |t - previous| >
epsilon; when the difference is within epsilon, neither the notification nor
the assignment happens and the current time keeps its previous value. -/
theorem C7_advance_on_success {α σ : Type} (interp : Interp α σ)
    (select : List String → String) (fuel : Nat) (s s' : CalSt α σ)
    (e : Ev α) (es : List (Ev α)) (h : s.err = false)
    (hcn : calendar_next s = (e :: es, s')) (hle : ¬ e.time > s.endTime) :
    (execute_next interp select fuel s).1 = true ∧
    (execute_next interp select fuel s).2.time =
      (if |e.time - s.time| > s.eps then e.time else s.time) ∧
    (execute_next interp select fuel s).2.timeAdvTrace =
      s.timeAdvTrace ++
        (if |e.time - s.time| > s.eps then [(s.time, e.time)] else []) := by
  have hH : HeapOnly s s' := by
    have := calendar_next_heapOnly s
    rw [hcn] at this
    exact this
  obtain ⟨_, ht, hend, heps, _, _, _, _, _, hta⟩ := hH.fields
  unfold execute_next
  rw [h]
  simp only [Bool.false_eq_true, if_false, hcn]
  have hgt : ¬ e.time > s'.endTime := by rw [hend]; exact hle
  simp only [hgt, if_false]
  obtain ⟨f1, _, _, f4⟩ :=
    ece_frame interp select fuel (e :: es) (advance_time e.time s')
  refine ⟨trivial, ?_, ?_⟩
  · rw [f1]
    unfold advance_time
    rw [ht, heps]
    by_cases habs : |e.time - s.time| > s.eps
    · rw [if_pos habs, if_pos habs]
    · rw [if_neg habs, if_neg habs]
      exact ht
  · rw [f4]
    unfold advance_time
    rw [ht, heps, hta]
    by_cases habs : |e.time - s.time| > s.eps
    · rw [if_pos habs, if_pos habs]
    · rw [if_neg habs, if_neg habs]
      simpa using hta

end Devs

namespace Devs

/-- Counterexample to C7 as stated: a successful advance to a group at time 1
with current time 0 and epsilon 1 leaves the current time at 0 — the
assignment time := t does NOT happen when the difference is within epsilon
(and no notification is sent). -/
theorem C7_counterexample :
    (execute_next unitInterp fifo_selector 10 nearNowSt).1 = true ∧
    (calendar_next nearNowSt).1.map (fun e => e.time) = [1] ∧
    nearNowSt.time = 0 ∧ nearNowSt.eps = 1 ∧
    (execute_next unitInterp fifo_selector 10 nearNowSt).2.time = 0 ∧
    (0 : Time) ≠ 1 := by
  decide

/-- Witness for C7 at a concrete input: the group head is at time 1, the
previous time 0 is within epsilon = 1, so the run returns true with the time
and the notification trace unchanged. -/
theorem C7_advance_on_success_witness :
    (execute_next unitInterp fifo_selector 10 nearNowSt).1 = true ∧
    (execute_next unitInterp fifo_selector 10 nearNowSt).2.time =
      (if |(⟨1, (), "M", "", 0⟩ : Ev Unit).time - nearNowSt.time| > nearNowSt.eps
        then (⟨1, (), "M", "", 0⟩ : Ev Unit).time else nearNowSt.time) ∧
    (execute_next unitInterp fifo_selector 10 nearNowSt).2.timeAdvTrace =
      nearNowSt.timeAdvTrace ++
        (if |(⟨1, (), "M", "", 0⟩ : Ev Unit).time - nearNowSt.time| > nearNowSt.eps
          then [(nearNowSt.time, (⟨1, (), "M", "", 0⟩ : Ev Unit).time)] else []) :=
  C7_advance_on_success unitInterp fifo_selector 10 nearNowSt
    { nearNowSt with heap := [] } ⟨1, (), "M", "", 0⟩ [] (by decide) (by decide) (by decide)

end Devs

namespace Devs

theorem processReq_cancelled_fired {α σ : Type} (s : CalSt α σ) (r : Req α) :
    (∃ l, (processReq s r).cancelled = s.cancelled ++ l) ∧
    (processReq s r).fired = s.fired := by
  cases r with
  | cancel i =>
    simp only [processReq]
    split
    · exact ⟨⟨[], by simp⟩, rfl⟩
    · exact ⟨⟨[i], rfl⟩, rfl⟩
  | sched t a mo d =>
    simp only [processReq]
    split
    · exact ⟨⟨[], by simp⟩, rfl⟩
    · unfold schedule_event
      (repeat' split) <;> exact ⟨⟨[], by simp⟩, rfl⟩

theorem processReqs_cancelled_fired {α σ : Type} (s : CalSt α σ) (reqs : List (Req α)) :
    (∃ l, (processReqs s reqs).cancelled = s.cancelled ++ l) ∧
    (processReqs s reqs).fired = s.fired := by
  induction reqs generalizing s with
  | nil => exact ⟨⟨[], by simp [processReqs]⟩, rfl⟩
  | cons r rs ih =>
    obtain ⟨⟨l1, h1⟩, h2⟩ := processReq_cancelled_fired s r
    obtain ⟨⟨l2, g1⟩, g2⟩ := ih (processReq s r)
    refine ⟨⟨l1 ++ l2, ?_⟩, g2.trans h2⟩
    show (processReqs (processReq s r) rs).cancelled = s.cancelled ++ (l1 ++ l2)
    rw [g1, h1, List.append_assoc]

theorem eea_cancelled_fired {α σ : Type} (interp : Interp α σ) (e : Ev α)
    (s : CalSt α σ) :
    (∃ l, (execute_event_action interp e s).cancelled = s.cancelled ++ l) ∧
    (execute_event_action interp e s).fired = s.fired ++ [e] := by
  unfold execute_event_action
  rcases hi : interp e.act s.time s.nextId s.world with ⟨w', reqs⟩
  simp only [hi]
  obtain ⟨⟨l, h1⟩, h2⟩ := processReqs_cancelled_fired
    { s with fired := s.fired ++ [e], world := w' } reqs
  exact ⟨⟨l, h1⟩, h2⟩

theorem roundStep_cancelled_fired {α σ : Type} (interp : Interp α σ)
    (select : List String → String) (G : List (Ev α)) (s : CalSt α σ) :
    (∃ l, (roundStep interp select G s).2.cancelled = s.cancelled ++ l) ∧
    ((roundStep interp select G s).2.fired = s.fired ∨
      ∃ e, (roundStep interp select G s).2.fired = s.fired ++ [e] ∧
        e.id ∉ s.cancelled) := by
  rcases roundStep_cases interp select G s with
    ⟨_, hr⟩ | ⟨_, _, hr⟩ | ⟨_, _, _, hr⟩ | ⟨_, _, _, _, _, hr⟩ |
    ⟨_, _, _, _, _, _, _, hr⟩ | ⟨_, _, _, e, _, _, hc, _, hr⟩ |
    ⟨_, _, _, e, _, _, hc, _, hr⟩ <;> rw [hr]
  · exact ⟨⟨[], by simp⟩, Or.inl rfl⟩
  · exact ⟨⟨[], by simp⟩, Or.inl rfl⟩
  · exact ⟨⟨[], by simp⟩, Or.inl rfl⟩
  · exact ⟨⟨[], by simp⟩, Or.inl rfl⟩
  · exact ⟨⟨[], by simp⟩, Or.inl rfl⟩
  · obtain ⟨⟨l, h1⟩, h2⟩ := eea_cancelled_fired interp e s
    exact ⟨⟨l, h1⟩, Or.inr ⟨e, h2, hc⟩⟩
  · obtain ⟨⟨l, h1⟩, h2⟩ := eea_cancelled_fired interp e s
    have hfields := (gather_heapOnly e.time (execute_event_action interp e s)).fields
    obtain ⟨g1, _, _, _, _, _, _, g2, _, _⟩ := hfields
    exact ⟨⟨l, g1.trans h1⟩, Or.inr ⟨e, g2.trans h2, hc⟩⟩

theorem calStep_cancelled_fired {α σ : Type} {interp : Interp α σ}
    {select : List String → String} {m m' : Machine α σ}
    (h : CalStep interp select m m') :
    (∀ c ∈ m.cal.cancelled, c ∈ m'.cal.cancelled) ∧
    (∀ e, e ∈ m'.cal.fired → e ∈ m.cal.fired ∨ e.id ∉ m.cal.cancelled) := by
  cases h with
  | begin_round hg herr hcn hle =>
    rename_i e es s'
    have hH : HeapOnly m.cal s' := by
      have := calendar_next_heapOnly m.cal
      rw [hcn] at this
      exact this
    obtain ⟨hc, _, _, _, _, _, _, hfd, _, _⟩ := hH.fields
    constructor
    · intro c hcm
      show c ∈ (advance_time e.time s').cancelled
      unfold advance_time
      split <;> simpa [hc] using hcm
    · intro ev hev
      left
      have : (advance_time e.time s').fired = s'.fired := by
        unfold advance_time
        split <;> rfl
      rw [this, hfd] at hev
      exact hev
  | finish_past_end hg herr hcn hle =>
    rename_i e es s'
    have hH : HeapOnly m.cal s' := by
      have := calendar_next_heapOnly m.cal
      rw [hcn] at this
      exact this
    obtain ⟨hc, _, _, _, _, _, _, hfd, _, _⟩ := hH.fields
    constructor
    · intro c hcm
      show c ∈ (advance_time s'.endTime s').cancelled
      unfold advance_time
      split <;> simpa [hc] using hcm
    · intro ev hev
      left
      have : (advance_time s'.endTime s').fired = s'.fired := by
        unfold advance_time
        split <;> rfl
      rw [this, hfd] at hev
      exact hev
  | finish_empty hg herr hcn =>
    rename_i s'
    have hH : HeapOnly m.cal s' := by
      have := calendar_next_heapOnly m.cal
      rw [hcn] at this
      exact this
    obtain ⟨hc, _, _, _, _, _, _, hfd, _, _⟩ := hH.fields
    exact ⟨fun c hcm => by simpa [hc] using hcm,
      fun ev hev => Or.inl (by rwa [hfd] at hev)⟩
  | fire hg herr hrs =>
    obtain ⟨⟨l, h1⟩, h2⟩ := roundStep_cancelled_fired interp select m.group m.cal
    rw [hrs] at h1 h2
    constructor
    · intro c hcm
      show c ∈ _
      rw [h1]
      exact List.mem_append.mpr (Or.inl hcm)
    · intro ev hev
      rcases h2 with h2 | ⟨e, h2, hlive⟩
      · left
        rwa [h2] at hev
      · rw [h2] at hev
        rcases List.mem_append.mp hev with hev | hev
        · exact Or.inl hev
        · have : ev = e := by simpa using hev
          subst this
          exact Or.inr hlive

/-- C3: an Event whose shared cancellation flag is set before it would fire
is never executed — if at some instant the flag of an event is already set
and the event has not been executed by then, it is not executed at any
reachable later instant, regardless of whether the event sits at the top of
the heap, is buried in it, or has already been extracted into the current
concurrent group (a fired event is recorded in the fired trace exactly when
its action is executed). -/
theorem C3_cancelled_never_fires {α σ : Type} (interp : Interp α σ)
    (select : List String → String) (m m' : Machine α σ)
    (hreach : Reach interp select m m') (e : Ev α)
    (hf : e ∈ m'.cal.fired) (hc : e.id ∈ m.cal.cancelled) : e ∈ m.cal.fired := by
  induction hreach using Relation.ReflTransGen.head_induction_on with
  | refl => exact hf
  | head hstep _ ih =>
    rename_i a b _
    obtain ⟨hmono, hstepfired⟩ := calStep_cancelled_fired hstep
    have hb : e ∈ b.cal.fired := ih (hmono e.id hc)
    rcases hstepfired e hb with hgood | hbad
    · exact hgood
    · exact absurd hc hbad

/-- Witness for C3 at a concrete input: an already-fired event whose flag is
set stays exactly the already-fired one across a kernel step. -/
theorem C3_cancelled_never_fires_witness :
    (⟨2, (), "M", "", 0⟩ : Ev Unit) ∈ firedThenCancelledM.cal.fired :=
  C3_cancelled_never_fires unitInterp fifo_selector firedThenCancelledM
    ⟨firedThenCancelledM.cal, []⟩
    (Relation.ReflTransGen.single (CalStep.finish_empty rfl rfl (by decide)))
    ⟨2, (), "M", "", 0⟩ (by decide) (by decide)

end Devs

namespace Devs

theorem npce_some {α σ : Type} {t : Time} {s s' : CalSt α σ} {e : Ev α}
    (h : next_pending_concurrent_event t s = (some e, s')) :
    |e.time - t| ≤ s.eps ∧ s'.heap.length < s.heap.length := by
  unfold next_pending_concurrent_event at h
  rcases hm : popMin (pop_cancelled_events s).heap with _ | ⟨e0, rest⟩ <;>
    simp only [hm] at h
  · exact absurd h (by simp)
  · by_cases habs : |e0.time - t| ≤ s.eps
    · rw [if_pos habs] at h
      obtain ⟨he, hs⟩ : e0 = e ∧ ({ pop_cancelled_events s with heap := rest } : CalSt α σ) = s' := by
        constructor <;> [skip; skip] <;> simp_all
      subst he
      refine ⟨habs, ?_⟩
      rw [← hs]
      have h1 : rest.length + 1 = (pop_cancelled_events s).heap.length :=
        (popMin_length hm).symm
      have h2 : (pop_cancelled_events s).heap.length ≤ s.heap.length :=
        popCancelledAux_length_le s.cancelled s.heap.length s.heap
      simp only []
      omega
    · rw [if_neg habs] at h
      exact absurd h (by simp)

theorem npce_none {α σ : Type} {t : Time} {s s' : CalSt α σ}
    (h : next_pending_concurrent_event t s = (none, s')) :
    s'.cancelled = s.cancelled ∧
    ∀ e r, popMin s'.heap = some (e, r) → e.id ∉ s'.cancelled ∧ ¬ |e.time - t| ≤ s.eps := by
  have hc : s'.cancelled = s.cancelled := by
    have := npce_heapOnly t s
    rw [h] at this
    exact this.fields.1
  refine ⟨hc, ?_⟩
  unfold next_pending_concurrent_event at h
  rcases hm : popMin (pop_cancelled_events s).heap with _ | ⟨e0, rest⟩ <;>
    simp only [hm] at h
  · obtain rfl : pop_cancelled_events s = s' := by simpa using h
    intro e r hmm
    rw [hmm] at hm
    exact absurd hm (by simp)
  · by_cases habs : |e0.time - t| ≤ s.eps
    · rw [if_pos habs] at h
      exact absurd h (by simp)
    · rw [if_neg habs] at h
      obtain rfl : pop_cancelled_events s = s' := by simpa using h
      intro e r hmm
      rw [hmm] at hm
      obtain ⟨rfl, rfl⟩ : e = e0 ∧ r = rest := by simpa using hm
      constructor
      · have hlive : e.id ∉ s.cancelled :=
          popCancelledAux_top_live (Nat.le_refl _) hmm
        exact hlive
      · exact habs

end Devs

namespace Devs

theorem gatherAux_spec {α σ : Type} (t : Time) (fuel : Nat) (s : CalSt α σ)
    (hfuel : s.heap.length ≤ fuel) :
    (∀ e ∈ (gatherConcurrentAux t fuel s).1, |e.time - t| ≤ s.eps) ∧
    (gatherConcurrentAux t fuel s).2.cancelled = s.cancelled ∧
    (∀ e r, popMin (gatherConcurrentAux t fuel s).2.heap = some (e, r) →
      e.id ∉ (gatherConcurrentAux t fuel s).2.cancelled ∧ ¬ |e.time - t| ≤ s.eps) := by
  induction fuel generalizing s with
  | zero =>
    have : s.heap = [] := List.length_eq_zero.mp (Nat.le_zero.mp hfuel)
    refine ⟨by simp [gatherConcurrentAux], rfl, ?_⟩
    intro e r hm
    rw [show (gatherConcurrentAux t 0 s).2.heap = s.heap from rfl, this] at hm
    exact absurd hm (by simp [popMin])
  | succ n ih =>
    simp only [gatherConcurrentAux]
    rcases h : next_pending_concurrent_event t s with ⟨o, s'⟩
    have hH : HeapOnly s s' := by
      have := npce_heapOnly t s
      rw [h] at this
      exact this
    obtain ⟨hc, _, _, heps, _⟩ := hH.fields
    cases o with
    | none =>
      simp only
      obtain ⟨hc', hrest⟩ := npce_none h
      exact ⟨by simp, hc', hrest⟩
    | some e =>
      simp only
      obtain ⟨habs, hlen⟩ := npce_some h
      have hfuel' : s'.heap.length ≤ n := by omega
      obtain ⟨g1, g2, g3⟩ := ih s' hfuel'
      refine ⟨?_, g2.trans hc, ?_⟩
      · intro e' he'
        rcases List.mem_cons.mp he' with rfl | he'
        · exact habs
        · have := g1 e' he'
          rwa [heps] at this
      · intro e' r hm
        obtain ⟨hl, hr⟩ := g3 e' r hm
        refine ⟨hl, ?_⟩
        rwa [heps] at hr

theorem gather_spec {α σ : Type} (t : Time) (s : CalSt α σ) :
    (∀ e ∈ (gatherConcurrent t s).1, |e.time - t| ≤ s.eps) ∧
    (gatherConcurrent t s).2.cancelled = s.cancelled ∧
    (∀ e r, popMin (gatherConcurrent t s).2.heap = some (e, r) →
      e.id ∉ (gatherConcurrent t s).2.cancelled ∧ ¬ |e.time - t| ≤ s.eps) :=
  gatherAux_spec t s.heap.length s (Nat.le_refl _)

end Devs

namespace Devs

/-- C4 (amended): during a concurrent firing round, after a non-cancelled
event e fires, events are moved from the heap into the group while the
earliest live pending event is within epsilon of e's own time (the fired
event's time, not the group's initial time t); afterwards every event in the
resulting group is an original group member or lies within epsilon of e's
time, and the earliest live pending event left in the heap (if any) lies
strictly outside epsilon of e's time.  No such closure holds relative to the
group's initial time. -/
theorem C4_replenish_around_fired_event {α σ : Type} (interp : Interp α σ)
    (select : List String → String) (G : List (Ev α)) (s : CalSt α σ)
    (idx : Nat) (e : Ev α) (herr : s.err = false)
    (hsel : (if 1 < G.length then select_index (G.map (fun e => e.model)) select
      else some 0) = some idx)
    (hg : G[idx]? = some e) (hlive : e.id ∉ s.cancelled)
    (hok : (execute_event_action interp e s).err = false) :
    (∀ e' ∈ (roundStep interp select G s).1, e' ∈ G ∨ |e'.time - e.time| ≤ s.eps) ∧
    (∀ e' r, popMin (roundStep interp select G s).2.heap = some (e', r) →
      e'.id ∉ (roundStep interp select G s).2.cancelled ∧
        ¬ |e'.time - e.time| ≤ s.eps) := by
  rcases roundStep_cases interp select G s with
    ⟨h1, _⟩ | ⟨_, hnil, _⟩ | ⟨_, _, hsel', _⟩ | ⟨_, _, idx', hsel', hg', _⟩ |
    ⟨_, _, idx', e', hsel', hg', hc, _⟩ | ⟨_, _, idx', e', hsel', hg', _, he1, _⟩ |
    ⟨_, _, idx', e', hsel', hg', _, _, hr⟩
  · rw [herr] at h1
    exact absurd h1 (by simp)
  · subst hnil
    exact absurd hg (by simp)
  · exact absurd (hsel.symm.trans hsel') (by simp)
  · obtain rfl : idx' = idx := by
      have := hsel.symm.trans hsel'
      simpa using this.symm
    exact absurd (hg.symm.trans hg') (by simp)
  · obtain rfl : idx' = idx := by
      have := hsel.symm.trans hsel'
      simpa using this.symm
    obtain rfl : e' = e := by
      have := hg.symm.trans hg'
      simpa using this.symm
    exact absurd hc hlive
  · obtain rfl : idx' = idx := by
      have := hsel.symm.trans hsel'
      simpa using this.symm
    obtain rfl : e' = e := by
      have := hg.symm.trans hg'
      simpa using this.symm
    rw [hok] at he1
    exact absurd he1 (by simp)
  · have hidx : idx' = idx := by
      have := hsel.symm.trans hsel'
      simpa using this.symm
    have he : e' = e := by
      rw [hidx] at hg'
      have := hg.symm.trans hg'
      simpa using this.symm
    rw [hidx, he] at hr
    rw [hr]
    have heps : (execute_event_action interp e s).eps = s.eps :=
      (eea_frame interp e s).2.2.1
    obtain ⟨g1, _, g3⟩ := gather_spec e.time (execute_event_action interp e s)
    constructor
    · intro x hx
      have hx' : x ∈ G ++ (gatherConcurrent e.time (execute_event_action interp e s)).1 :=
        (List.eraseIdx_sublist _ idx).subset hx
      rcases List.mem_append.mp hx' with hx' | hx'
      · exact Or.inl hx'
      · right
        have := g1 x hx'
        rwa [heps] at this
    · intro x r hm
      obtain ⟨hl, hrr⟩ := g3 x r hm
      refine ⟨hl, ?_⟩
      rwa [heps] at hrr

/-- Counterexample to C4 as stated: with epsilon 10 a round beginning at
group-head time t = 0 runs a chain whose successive events drift to times 10
and 20; the event at 20 then schedules a live event at time 9, which lies
within epsilon of t (9 ≤ 0 + 10) yet is not moved into the group (it is not
within epsilon of the firing event's time 20), so at the end of the round a
live event with time ≤ t + epsilon remains in the calendar. -/
theorem C4_counterexample :
    (execute_next chainInterp fifo_selector 10 chainStart).1 = true ∧
    (calendar_next chainStart).1.map (fun e => e.time) = [0] ∧
    chainStart.eps = 10 ∧
    (execute_next chainInterp fifo_selector 10 chainStart).2.heap =
      [⟨9, 4, "A", "", 3⟩] ∧
    (execute_next chainInterp fifo_selector 10 chainStart).2.cancelled = [] ∧
    ((9 : Time) ≤ 0 + 10) := by
  decide

/-- Witness for C4 at a concrete input: firing the only group event at time 0
pulls a pending event at time 5 (within epsilon 10) into the group. -/
theorem C4_replenish_around_fired_event_witness :
    (∀ e' ∈ (roundStep chainInterp fifo_selector [⟨0, 9, "A", "", 0⟩]
        (mkCal [⟨5, 9, "B", "", 1⟩] [] 0 100 10 2 ())).1,
      e' ∈ [(⟨0, 9, "A", "", 0⟩ : Ev Nat)] ∨
        |e'.time - (⟨0, 9, "A", "", 0⟩ : Ev Nat).time| ≤
          (mkCal (α := Nat) (σ := Unit) [⟨5, 9, "B", "", 1⟩] [] 0 100 10 2 ()).eps) ∧
    (∀ e' r, popMin (roundStep chainInterp fifo_selector [⟨0, 9, "A", "", 0⟩]
        (mkCal [⟨5, 9, "B", "", 1⟩] [] 0 100 10 2 ())).2.heap = some (e', r) →
      e'.id ∉ (roundStep chainInterp fifo_selector [⟨0, 9, "A", "", 0⟩]
        (mkCal [⟨5, 9, "B", "", 1⟩] [] 0 100 10 2 ())).2.cancelled ∧
        ¬ |e'.time - (⟨0, 9, "A", "", 0⟩ : Ev Nat).time| ≤
          (mkCal (α := Nat) (σ := Unit) [⟨5, 9, "B", "", 1⟩] [] 0 100 10 2 ()).eps) :=
  C4_replenish_around_fired_event chainInterp fifo_selector [⟨0, 9, "A", "", 0⟩]
    (mkCal [⟨5, 9, "B", "", 1⟩] [] 0 100 10 2 ()) 0 ⟨0, 9, "A", "", 0⟩
    rfl (by decide) (by decide) (by decide) (by decide)

end Devs

namespace Devs

theorem alookup_aupdate_self {β : Type} (l : List (String × β)) (n : String) (v : β)
    (h : (alookup l n).isSome) : alookup (aupdate l n v) n = some v := by
  induction l with
  | nil => simp [alookup] at h
  | cons p r ih =>
    rcases p with ⟨k, w⟩
    have hstep : aupdate ((k, w) :: r) n v =
        (if k = n then (n, v) else (k, w)) :: aupdate r n v := rfl
    rw [hstep]
    by_cases hk : k = n
    · rw [if_pos hk]
      simp [alookup]
    · rw [if_neg hk]
      simp only [alookup, if_neg hk] at h ⊢
      exact ih h

theorem alookup_aupdate_ne {β : Type} (l : List (String × β)) (n m : String) (v : β)
    (hm : m ≠ n) : alookup (aupdate l n v) m = alookup l m := by
  induction l with
  | nil => rfl
  | cons p r ih =>
    rcases p with ⟨k, w⟩
    have hstep : aupdate ((k, w) :: r) n v =
        (if k = n then (n, v) else (k, w)) :: aupdate r n v := rfl
    rw [hstep]
    by_cases hk : k = n
    · rw [if_pos hk]
      have hnm : ¬ n = m := fun h => hm h.symm
      have hkm : ¬ k = m := by rw [hk]; exact hnm
      simp only [alookup, if_neg hnm, if_neg hkm]
      exact ih
    · rw [if_neg hk]
      by_cases hkm : k = m
      · simp [alookup, hkm]
      · simp only [alookup, if_neg hkm]
        exact ih

/-- C5: when an atomic model's scheduled internal transition fires, the
emitted output equals the output function applied to the pre-transition state
(not to the new state); the state becomes delta_internal of the previous
state; last_transition_time becomes the current calendar time; the stored
cancel callback identifies the newly scheduled internal transition; and that
next internal transition is scheduled at current time + ta(new state). -/
theorem C5_internal_transition_effects {X Y S : Type} (n : String)
    (ent : AtomicEntry X Y S) (now : Time) (nid : Nat) (w : AWorld X Y S)
    (hl : alookup w.atomics n = some ent) :
    (atomicInterp (AAct.internal n) now nid w).1.outTrace =
      w.outTrace ++ [(n, now, ent.model.out ent.model.s)] ∧
    alookup (atomicInterp (AAct.internal n) now nid w).1.atomics n =
      some { model := { ent.model with s := ent.model.delta_internal ent.model.s }
             last_transition_time := now
             cancel_internal_transition :=
               some (nid + (w.wires.filter (fun wr => wr.1 = n)).length) } ∧
    (atomicInterp (AAct.internal n) now nid w).2 =
      (w.wires.filter (fun wr => wr.1 = n)).map
        (fun wr => Req.sched now
          (AAct.input wr.2.1 (wr.2.2 (ent.model.out ent.model.s)) n) wr.2.1
          "influencer input") ++
      [Req.sched (now + ent.model.ta (ent.model.delta_internal ent.model.s))
        (AAct.internal n) n "internal transition"] := by
  refine ⟨?_, ?_, ?_⟩
  · simp only [atomicInterp, hl]
  · simp only [atomicInterp, hl]
    exact alookup_aupdate_self w.atomics n _ (by rw [hl]; rfl)
  · simp only [atomicInterp, hl]

/-- Witness for C5 at a concrete input: the atomic named A with state 0,
output function the identity and internal transition the successor fires at
time 3; the emitted output is 0 (the pre-transition state), the new state is
1 and the next internal transition is scheduled at 3 + ta(1) = 4. -/
theorem C5_internal_transition_effects_witness :
    (atomicInterp (AAct.internal "A") 3 7 (oneAtomicWorld incModel)).1.outTrace =
      (oneAtomicWorld incModel).outTrace ++
        [("A", 3, incModel.out incModel.s)] ∧
    alookup (atomicInterp (AAct.internal "A") 3 7 (oneAtomicWorld incModel)).1.atomics "A" =
      some { model := { incModel with s := incModel.delta_internal incModel.s }
             last_transition_time := 3
             cancel_internal_transition :=
               some (7 + ((oneAtomicWorld incModel).wires.filter
                 (fun wr => wr.1 = "A")).length) } ∧
    (atomicInterp (AAct.internal "A") 3 7 (oneAtomicWorld incModel)).2 =
      ((oneAtomicWorld incModel).wires.filter (fun wr => wr.1 = "A")).map
        (fun wr => Req.sched 3
          (AAct.input wr.2.1 (wr.2.2 (incModel.out incModel.s)) "A") wr.2.1
          "influencer input") ++
      [Req.sched (3 + incModel.ta (incModel.delta_internal incModel.s))
        (AAct.internal "A") "A" "internal transition"] :=
  C5_internal_transition_effects "A" (oneAtomicEntry incModel) 3 7
    (oneAtomicWorld incModel) rfl

end Devs

namespace Devs

/-- C8: the later revision's IOModel::state_transitioned (src/unnamed/part_002)
invokes the state-transition listeners exactly when the pretty-printed
previous and next states differ and suppresses the notification when they are
equal, as the spec requires; the revision in src/include/devs/lib.hpp
contradicts this: its transition_state notifies unconditionally, exhibited
here on an atomic whose internal transition is the identity, where a
notification with equal pretty-printed states ("0" to "0") is emitted. -/
theorem C8_state_transition_suppression :
    (∀ (name : String) (now : Time) (prev next : String)
        (trace : List (String × Time × String × String)), prev ≠ next →
      state_transitioned_rev2 name now prev next trace =
        trace ++ [(name, now, prev, next)]) ∧
    (∀ (name : String) (now : Time) (prev next : String)
        (trace : List (String × Time × String × String)), prev = next →
      state_transitioned_rev2 name now prev next trace = trace) ∧
    (atomicInterp (AAct.internal "A") 3 7 (oneAtomicWorld idModel)).1.stTrace =
      [("A", 3, "0", "0")] := by
  refine ⟨?_, ?_, ?_⟩
  · intro name now prev next trace h
    simp [state_transitioned_rev2, h]
  · intro name now prev next trace h
    simp [state_transitioned_rev2, h]
  · decide

/-- Witness for C8 at concrete inputs: differing representations notify,
equal representations suppress. -/
theorem C8_state_transition_suppression_witness :
    state_transitioned_rev2 "A" 3 "0" "1" [] = [] ++ [("A", 3, "0", "1")] ∧
    state_transitioned_rev2 "A" 3 "0" "0" [] = [] :=
  ⟨C8_state_transition_suppression.1 "A" 3 "0" "1" [] (by decide),
    C8_state_transition_suppression.2.1 "A" 3 "0" "0" [] rfl⟩

/-- C9: constructing any model (atomic or compound) with an empty name is
fatal — the IOModel base constructor raises the error before anything else
happens, so no runtime entry exists and no event is scheduled (the error
result carries neither). -/
theorem C9_empty_name_fatal {X Y S : Type} (model : AtomicModel X Y S)
    (components : List (String × AtomicModel X Y S)) (now : Time) (nid : Nat) :
    ioModelCtorCheck "" = Except.error "Model name should not be empty" ∧
    atomicInit "" model now nid =
      Except.error "Model name should not be empty" ∧
    compoundInit "" components now nid =
      Except.error "Model name should not be empty" :=
  ⟨rfl, rfl, rfl⟩

/-- C10: an atomic simulator's last_transition_time is value-initialized to
zero at construction, not to the calendar's start time; consequently an
external input arriving at time T before any transition of that atomic hands
delta_external the elapsed time T - 0 = T rather than T - start_time. -/
theorem C10_elapsed_from_zero {X Y S : Type} (n : String)
    (model : AtomicModel X Y S) (start : Time) (nid : Nat) :
    (∀ ent reqs, atomicInit n model start nid = Except.ok (ent, reqs) →
      ent.last_transition_time = 0) ∧
    (∀ (w : AWorld X Y S) (ent : AtomicEntry X Y S) (x : X) (src : String)
        (T : Time) (nid' : Nat),
      alookup w.atomics n = some ent → ent.last_transition_time = 0 →
      ∃ ent', alookup (atomicInterp (AAct.input n x src) T nid' w).1.atomics n =
          some ent' ∧
        ent'.model.s = ent.model.delta_external ent.model.s (T - 0) x) := by
  constructor
  · intro ent reqs h
    unfold atomicInit ioModelCtorCheck at h
    by_cases hn : n = ""
    · rw [if_pos hn] at h
      exact Except.noConfusion
        (show (Except.error "Model name should not be empty" : Except String _) =
          Except.ok (ent, reqs) from h)
    · rw [if_neg hn] at h
      have h' : (({ model := model
                    last_transition_time := 0
                    cancel_internal_transition := some nid } : AtomicEntry X Y S),
          [Req.sched (start + model.ta model.s) (AAct.internal n) n
            "internal transition"]) = (ent, reqs) := by
        injection h
      cases h'
      rfl
  · intro w ent x src T nid' hl hz
    refine ⟨{ model := { ent.model with
                s := ent.model.delta_external ent.model.s
                  (T - ent.last_transition_time) x }
              last_transition_time := T
              cancel_internal_transition := some nid' }, ?_, ?_⟩
    · simp only [atomicInterp, hl]
      exact alookup_aupdate_self w.atomics n _ (by rw [hl]; rfl)
    · simp only [hz]

end Devs

namespace Devs

theorem reqEvents_bounds {α : Type} (reqs : List (Req α)) (nid : Nat) :
    ∀ e ∈ reqEvents reqs nid, nid ≤ e.id ∧ e.id < nid + reqSchedCount reqs := by
  induction reqs generalizing nid with
  | nil => simp [reqEvents]
  | cons r rs ih =>
    cases r with
    | cancel i =>
      simpa [reqEvents, reqSchedCount] using ih nid
    | sched t a m d =>
      intro e he
      simp only [reqEvents, List.mem_cons] at he
      rcases he with rfl | he
      · simp only [reqSchedCount]
        omega
      · have := ih (nid + 1) e he
        simp only [reqSchedCount]
        omega

theorem reqEvents_ids_nodup {α : Type} (reqs : List (Req α)) (nid : Nat) :
    ((reqEvents reqs nid).map (fun e => e.id)).Nodup := by
  induction reqs generalizing nid with
  | nil => simp [reqEvents]
  | cons r rs ih =>
    cases r with
    | cancel i => simpa [reqEvents] using ih nid
    | sched t a m d =>
      simp only [reqEvents, List.map_cons, List.nodup_cons]
      refine ⟨?_, ih (nid + 1)⟩
      intro hmem
      obtain ⟨e, he, hid⟩ := List.mem_map.mp hmem
      have := (reqEvents_bounds rs (nid + 1) e he).1
      omega

theorem reqEvents_append {α : Type} (r1 r2 : List (Req α)) (nid : Nat) :
    reqEvents (r1 ++ r2) nid =
      reqEvents r1 nid ++ reqEvents r2 (nid + reqSchedCount r1) := by
  induction r1 generalizing nid with
  | nil => simp [reqEvents, reqSchedCount]
  | cons r rs ih =>
    cases r with
    | cancel i => simpa [reqEvents, reqSchedCount] using ih nid
    | sched t a m d =>
      simp only [List.cons_append, reqEvents, reqSchedCount, List.cons.injEq, true_and]
      rw [show (rs.append r2) = rs ++ r2 from rfl, ih (nid + 1)]
      congr 2
      omega

theorem reqCancels_append {α : Type} (r1 r2 : List (Req α)) :
    reqCancels (r1 ++ r2) = reqCancels r1 ++ reqCancels r2 := by
  induction r1 with
  | nil => rfl
  | cons r rs ih =>
    cases r <;> simp [reqCancels, ih]

theorem reqSchedCount_append {α : Type} (r1 r2 : List (Req α)) :
    reqSchedCount (r1 ++ r2) = reqSchedCount r1 + reqSchedCount r2 := by
  induction r1 with
  | nil => simp [reqSchedCount]
  | cons r rs ih =>
    cases r with
    | cancel i => simp [reqSchedCount, ih]
    | sched t a m d =>
      simp [reqSchedCount, ih]
      omega

theorem processReqs_err_frozen {α σ : Type} (reqs : List (Req α)) (s : CalSt α σ)
    (h : s.err = true) : processReqs s reqs = s := by
  induction reqs with
  | nil => rfl
  | cons r rs ih =>
    have hstep : processReq s r = s := by
      cases r <;> simp [processReq, h]
    show processReqs (processReq s r) rs = s
    rw [hstep, ih]

theorem processReqs_err_mono {α σ : Type} (reqs : List (Req α)) (s : CalSt α σ)
    (h : (processReqs s reqs).err = false) : s.err = false := by
  cases herr : s.err with
  | false => rfl
  | true =>
    rw [processReqs_err_frozen reqs s herr] at h
    rw [herr] at h
    exact absurd h (by simp)

end Devs

namespace Devs

theorem processReqs_ok_desc {α σ : Type} (reqs : List (Req α)) (s : CalSt α σ)
    (h : (processReqs s reqs).err = false) :
    processReqs s reqs =
      { s with
          heap := s.heap ++ reqEvents reqs s.nextId
          cancelled := s.cancelled ++ reqCancels reqs
          nextId := s.nextId + reqSchedCount reqs
          schedTrace := s.schedTrace ++
            (reqEvents reqs s.nextId).map (fun e => (s.time, e)) } := by
  induction reqs generalizing s with
  | nil =>
    show s = _
    cases s
    simp [reqEvents, reqCancels, reqSchedCount]
  | cons r rs ih =>
    have herr : s.err = false := processReqs_err_mono (r :: rs) s h
    cases r with
    | cancel i =>
      have hstep : processReq s (Req.cancel i) =
          { s with cancelled := s.cancelled ++ [i] } := by
        simp [processReq, herr]
      have hh : (processReqs { s with cancelled := s.cancelled ++ [i] } rs).err
          = false := by
        rw [← hstep]
        exact h
      have hdesc := ih { s with cancelled := s.cancelled ++ [i] } hh
      show processReqs (processReq s (Req.cancel i)) rs = _
      rw [hstep, hdesc]
      cases s
      simp [reqEvents, reqCancels, reqSchedCount]
    | sched t a m d =>
      by_cases hpast : t < s.time
      · exfalso
        have hstep : processReq s (Req.sched t a m d) =
            { s with nextId := s.nextId + 1, err := true } := by
          simp [processReq, schedule_event, herr, hpast]
        have hcontra : (processReqs (processReq s (Req.sched t a m d)) rs).err
            = false := h
        rw [hstep, processReqs_err_frozen rs _ (by rfl)] at hcontra
        exact absurd hcontra (by simp)
      · have hstep : processReq s (Req.sched t a m d) =
            { s with
                nextId := s.nextId + 1
                heap := s.heap ++ [⟨t, a, m, d, s.nextId⟩]
                schedTrace := s.schedTrace ++ [(s.time, ⟨t, a, m, d, s.nextId⟩)] } := by
          simp [processReq, schedule_event, herr, hpast]
        have hh : (processReqs ({ s with
            nextId := s.nextId + 1
            heap := s.heap ++ [⟨t, a, m, d, s.nextId⟩]
            schedTrace := s.schedTrace ++ [(s.time, ⟨t, a, m, d, s.nextId⟩)] }) rs).err
            = false := by
          rw [← hstep]
          exact h
        have hdesc := ih _ hh
        show processReqs (processReq s (Req.sched t a m d)) rs = _
        rw [hstep, hdesc]
        cases s
        simp only [reqEvents, reqCancels, reqSchedCount, List.append_assoc,
          List.map_cons, List.singleton_append, List.cons_append, CalSt.mk.injEq,
          List.append_cancel_left_eq, true_and, and_true]
        refine ⟨rfl, ?_, rfl⟩
        omega

end Devs

namespace Devs

theorem perm_cons_eraseIdx {γ : Type} :
    ∀ {l : List γ} {i : Nat} {e : γ}, l[i]? = some e → l.Perm (e :: l.eraseIdx i)
  | [], i, e, h => by simp at h
  | a :: l, 0, e, h => by
    obtain rfl : a = e := by simpa using h
    simp [List.eraseIdx]
  | a :: l, i + 1, e, h => by
    have h' : l[i]? = some e := by simpa using h
    have ih := perm_cons_eraseIdx h'
    exact (ih.cons a).trans (List.Perm.swap e a _)

theorem nodup_ids_subperm {α : Type} {l l' : List (Ev α)} (h : List.Subperm l' l)
    (hn : (l.map (fun e => e.id)).Nodup) : (l'.map (fun e => e.id)).Nodup := by
  obtain ⟨l'', hperm, hsub⟩ := h
  have h1 : (l''.map (fun e => e.id)).Nodup := hn.sublist (hsub.map _)
  exact (hperm.map (fun e => e.id)).nodup_iff.mp h1

theorem npe_none_perm {α σ : Type} {s s' : CalSt α σ}
    (h : next_pending_event s = (none, s')) :
    ∃ d, s.heap.Perm (d ++ s'.heap) ∧ ∀ x ∈ d, x.id ∈ s.cancelled := by
  unfold next_pending_event at h
  rcases hm : popMin (pop_cancelled_events s).heap with _ | ⟨e, rest⟩ <;>
    simp only [hm] at h
  · obtain rfl : pop_cancelled_events s = s' := by simpa using h
    obtain ⟨d, hp, hd⟩ := popCancelledAux_perm s.cancelled s.heap.length s.heap
    exact ⟨d, hp, hd⟩
  · exact absurd h (by simp)

theorem npe_some_perm {α σ : Type} {s s' : CalSt α σ} {e : Ev α}
    (h : next_pending_event s = (some e, s')) :
    ∃ d, s.heap.Perm (d ++ e :: s'.heap) ∧ ∀ x ∈ d, x.id ∈ s.cancelled := by
  unfold next_pending_event at h
  rcases hm : popMin (pop_cancelled_events s).heap with _ | ⟨e0, rest⟩ <;>
    simp only [hm] at h
  · exact absurd h (by simp)
  · simp only [Prod.mk.injEq, Option.some.injEq] at h
    obtain ⟨rfl, hs⟩ := h
    obtain ⟨d, hp, hd⟩ := popCancelledAux_perm s.cancelled s.heap.length s.heap
    refine ⟨d, ?_, hd⟩
    have h2 : (pop_cancelled_events s).heap.Perm (e0 :: rest) := popMin_perm hm
    have hrest : s'.heap = rest := by rw [← hs]
    rw [hrest]
    exact hp.trans ((h2.append_left d).trans (List.Perm.refl _))

theorem npce_perm {α σ : Type} {t : Time} {s s' : CalSt α σ} {o : Option (Ev α)}
    (h : next_pending_concurrent_event t s = (o, s')) :
    ∃ d, s.heap.Perm (d ++ (o.elim [] (fun e => [e])) ++ s'.heap) ∧
      ∀ x ∈ d, x.id ∈ s.cancelled := by
  unfold next_pending_concurrent_event at h
  rcases hm : popMin (pop_cancelled_events s).heap with _ | ⟨e0, rest⟩ <;>
    simp only [hm] at h
  · simp only [Prod.mk.injEq] at h
    obtain ⟨rfl, hs⟩ := h
    obtain ⟨d, hp, hd⟩ := popCancelledAux_perm s.cancelled s.heap.length s.heap
    refine ⟨d, ?_, hd⟩
    simp only [Option.elim, List.append_nil]
    rw [← hs]
    exact hp
  · obtain ⟨d, hp, hd⟩ := popCancelledAux_perm s.cancelled s.heap.length s.heap
    have h2 : (pop_cancelled_events s).heap.Perm (e0 :: rest) := popMin_perm hm
    by_cases habs : |e0.time - t| ≤ s.eps
    · rw [if_pos habs] at h
      simp only [Prod.mk.injEq] at h
      obtain ⟨ho, hs⟩ := h
      refine ⟨d, ?_, hd⟩
      rw [← ho, ← hs]
      simp only [Option.elim]
      have : (d ++ [e0]) ++ rest = d ++ e0 :: rest := by simp
      rw [show d ++ [e0] ++ ({ pop_cancelled_events s with heap := rest } : CalSt α σ).heap
        = d ++ e0 :: rest from by simp]
      exact hp.trans (h2.append_left d)
    · rw [if_neg habs] at h
      simp only [Prod.mk.injEq] at h
      obtain ⟨ho, hs⟩ := h
      refine ⟨d, ?_, hd⟩
      rw [← ho, ← hs]
      simp only [Option.elim, List.append_nil]
      exact hp

end Devs

namespace Devs

theorem gatherAux_perm {α σ : Type} (t : Time) (fuel : Nat) (s : CalSt α σ) :
    ∃ d, s.heap.Perm (d ++ (gatherConcurrentAux t fuel s).1 ++
      (gatherConcurrentAux t fuel s).2.heap) ∧ ∀ x ∈ d, x.id ∈ s.cancelled := by
  induction fuel generalizing s with
  | zero => exact ⟨[], by simp [gatherConcurrentAux], by simp⟩
  | succ n ih =>
    simp only [gatherConcurrentAux]
    rcases h : next_pending_concurrent_event t s with ⟨o, s'⟩
    have hH : HeapOnly s s' := by
      have := npce_heapOnly t s
      rw [h] at this
      exact this
    have hc : s'.cancelled = s.cancelled := hH.fields.1
    cases o with
    | none =>
      obtain ⟨d, hp, hd⟩ := npce_perm h
      simp only [Option.elim, List.append_nil] at hp
      exact ⟨d, by simpa using hp, hd⟩
    | some e =>
      obtain ⟨d1, hp1, hd1⟩ := npce_perm h
      simp only [Option.elim] at hp1
      obtain ⟨d2, hp2, hd2⟩ := ih s'
      refine ⟨d1 ++ d2, ?_, ?_⟩
      · simp only
        have hfull : s.heap.Perm ((d1 ++ [e]) ++ ((d2 ++ (gatherConcurrentAux t n s').1) ++
            (gatherConcurrentAux t n s').2.heap)) := by
          refine hp1.trans ?_
          have := hp2.append_left (d1 ++ [e])
          refine (List.Perm.of_eq (by simp)).trans (this.trans (List.Perm.of_eq (by simp)))
        refine hfull.trans ?_
        rw [← Multiset.coe_eq_coe]
        simp only [← Multiset.coe_add, ← Multiset.cons_coe, ← Multiset.singleton_add,
          Multiset.coe_nil]
        abel
      · intro x hx
        rcases List.mem_append.mp hx with hx | hx
        · exact hd1 x hx
        · rw [← hc]
          exact hd2 x hx

theorem calendar_next_perm {α σ : Type} (s : CalSt α σ) :
    ∃ d, s.heap.Perm (d ++ (calendar_next s).1 ++ (calendar_next s).2.heap) ∧
      ∀ x ∈ d, x.id ∈ s.cancelled := by
  unfold calendar_next
  rcases h : next_pending_event s with ⟨o, s'⟩
  have hH : HeapOnly s s' := by
    have := npe_heapOnly s
    rw [h] at this
    exact this
  have hc : s'.cancelled = s.cancelled := hH.fields.1
  cases o with
  | none =>
    obtain ⟨d, hp, hd⟩ := npe_none_perm h
    exact ⟨d, by simpa using hp, hd⟩
  | some e =>
    obtain ⟨d1, hp1, hd1⟩ := npe_some_perm h
    obtain ⟨d2, hp2, hd2⟩ := gatherAux_perm e.time s'.heap.length s'
    simp only
    rcases hg : gatherConcurrent e.time s' with ⟨es, s''⟩
    rw [show gatherConcurrentAux e.time s'.heap.length s' = (es, s'') from hg] at hp2
    simp only at hp2
    simp only [hg]
    refine ⟨d1 ++ d2, ?_, ?_⟩
    · have hfull : s.heap.Perm ((d1 ++ (e :: (d2 ++ es))) ++ s''.heap) := by
        refine hp1.trans ?_
        have := hp2.append_left d1
        refine ?_
        have h2 : (d1 ++ e :: s'.heap).Perm (d1 ++ e :: (d2 ++ es ++ s''.heap)) :=
          (hp2.cons e).append_left d1
        refine h2.trans (List.Perm.of_eq (by simp))
      refine hfull.trans ?_
      rw [← Multiset.coe_eq_coe]
      simp only [← Multiset.coe_add, ← Multiset.cons_coe, ← Multiset.singleton_add,
        Multiset.coe_nil]
      abel
    · intro x hx
      rcases List.mem_append.mp hx with hx | hx
      · exact hd1 x hx
      · rw [← hc]
        exact hd2 x hx

end Devs

namespace Devs

theorem reqSchedCount_map_sched {α β : Type} (l : List β) (f : β → Time) (g : β → α)
    (mo d : β → String) :
    reqSchedCount (l.map (fun b => Req.sched (f b) (g b) (mo b) (d b))) = l.length := by
  induction l with
  | nil => rfl
  | cons b bs ih =>
    simp [reqSchedCount, ih]
    omega

theorem reqCancels_map_sched {α β : Type} (l : List β) (f : β → Time) (g : β → α)
    (mo d : β → String) :
    reqCancels (l.map (fun b => Req.sched (f b) (g b) (mo b) (d b))) = [] := by
  induction l with
  | nil => rfl
  | cons b bs ih => simpa [reqCancels] using ih

theorem reqEvents_map_sched_act {α β : Type} (l : List β) (f : β → Time) (g : β → α)
    (mo d : β → String) (nid : Nat) :
    ∀ e ∈ reqEvents (l.map (fun b => Req.sched (f b) (g b) (mo b) (d b))) nid,
      ∃ b ∈ l, e.act = g b := by
  induction l generalizing nid with
  | nil => simp [reqEvents]
  | cons b bs ih =>
    intro e he
    simp only [List.map_cons, reqEvents, List.mem_cons] at he
    rcases he with rfl | he
    · exact ⟨b, List.mem_cons_self b bs, rfl⟩
    · obtain ⟨b', hb', hact⟩ := ih (nid + 1) e he
      exact ⟨b', List.mem_cons_of_mem b hb', hact⟩

theorem alookup_isSome_aupdate {β : Type} (l : List (String × β)) (n q : String) (v : β) :
    (alookup (aupdate l n v) q).isSome = (alookup l q).isSome := by
  induction l with
  | nil => rfl
  | cons p r ih =>
    rcases p with ⟨k, w⟩
    have hstep : aupdate ((k, w) :: r) n v =
        (if k = n then (n, v) else (k, w)) :: aupdate r n v := rfl
    rw [hstep]
    by_cases hk : k = n
    · rw [if_pos hk]
      by_cases hq : k = q
      · rw [← hk] at *
        simp [alookup, hq]
      · have hnq : ¬ n = q := by rw [← hk]; exact hq
        simp only [alookup, if_neg hnq, if_neg hq]
        exact ih
    · rw [if_neg hk]
      by_cases hq : k = q
      · simp [alookup, hq]
      · simp only [alookup, if_neg hq]
        exact ih

end Devs

namespace Devs

theorem subperm_of_multiset_eq {γ : Type} {l1 l2 : List γ} (d : List γ)
    (h : (l2 : Multiset γ) = ↑l1 + ↑d) : List.Subperm l1 l2 := by
  rw [← Multiset.coe_le]
  exact Multiset.le_iff_exists_add.mpr ⟨↑d, h⟩

theorem advance_time_fields {α σ : Type} (t : Time) (s : CalSt α σ) :
    (advance_time t s).heap = s.heap ∧ (advance_time t s).cancelled = s.cancelled ∧
    (advance_time t s).nextId = s.nextId ∧ (advance_time t s).world = s.world ∧
    (advance_time t s).err = s.err := by
  unfold advance_time
  split <;> exact ⟨rfl, rfl, rfl, rfl, rfl⟩

theorem kernelInv_transfer {X Y S : Type} [DecidableEq X]
    {s s' : CalSt (AAct X) (AWorld X Y S)} {G G' : List (Ev (AAct X))}
    (hk : KernelInv s G)
    (hsub : List.Subperm (s'.heap ++ G') (s.heap ++ G))
    (hc : s'.cancelled = s.cancelled) (hn : s'.nextId = s.nextId)
    (hw : s'.world = s.world) : KernelInv s' G' := by
  have hmem : ∀ x ∈ s'.heap ++ G', x ∈ s.heap ++ G := fun x hx => hsub.subset hx
  constructor
  · intro e he
    rw [hn]
    exact hk.fresh e (hmem e he)
  · intro c hcm
    rw [hn]
    rw [hc] at hcm
    exact hk.cfresh c hcm
  · exact nodup_ids_subperm hsub hk.nodup
  · intro n ent hl h hh
    rw [hn]
    rw [hw] at hl
    exact hk.hfresh n ent hl h hh
  · intro n ent hl e he hact hlive
    rw [hw] at hl
    rw [hc] at hlive
    exact hk.pointing n ent hl e (hmem e he) hact hlive
  · intro e he n hact
    rw [hw]
    exact hk.named e (hmem e he) n hact

theorem ids_injective {α : Type} {l : List (Ev α)}
    (hn : (l.map (fun e => e.id)).Nodup) {x y : Ev α} (hx : x ∈ l) (hy : y ∈ l)
    (hid : x.id = y.id) : x = y :=
  List.inj_on_of_nodup_map hn hx hy hid

end Devs

namespace Devs

theorem eea_as_processReqs {α σ : Type} (interp : Interp α σ) (e : Ev α) (s : CalSt α σ) :
    execute_event_action interp e s =
      processReqs
        { s with
          fired := s.fired ++ [e]
          world := (interp e.act s.time s.nextId s.world).1 }
        (interp e.act s.time s.nextId s.world).2 := rfl

theorem mem_getElem?_lt {γ : Type} {l : List γ} {i : Nat} {e : γ}
    (h : l[i]? = some e) : i < l.length := by
  by_contra hge
  rw [List.getElem?_eq_none (Nat.le_of_not_lt hge)] at h
  exact absurd h (by simp)

end Devs

namespace Devs

theorem not_mem_of_count_eq {γ : Type} [DecidableEq γ] {l d SRC : List γ} {e : γ}
    (h : (↑l : Multiset γ) + (↑d + {e}) = ↑SRC) (hn : SRC.Nodup) : e ∉ l := by
  intro hmem
  have h1 : Multiset.count e ((↑l : Multiset γ) + (↑d + {e})) =
      Multiset.count e (↑SRC : Multiset γ) := by rw [h]
  rw [Multiset.count_add, Multiset.count_add, Multiset.count_singleton_self] at h1
  have h2 : Multiset.count e (↑SRC : Multiset γ) ≤ 1 :=
    Multiset.nodup_iff_count_le_one.mp (Multiset.coe_nodup.mpr hn) e
  have h3 : 1 ≤ Multiset.count e (↑l : Multiset γ) :=
    Multiset.one_le_count_iff_mem.mpr (Multiset.mem_coe.mpr hmem)
  omega

theorem length_le_one_of_const_ids {α : Type} {l : List (Ev α)} {c : Nat}
    (hn : (l.map (fun e => e.id)).Nodup) (hc : ∀ x ∈ l, x.id = c) : l.length ≤ 1 := by
  cases l with
  | nil => simp
  | cons a t =>
    cases t with
    | nil => simp
    | cons b u =>
      exfalso
      have ha : a.id = c := hc a (by simp)
      have hb : b.id = c := hc b (by simp)
      have hnot : a.id ∉ ((b :: u).map (fun e => e.id)) :=
        (List.nodup_cons.mp (by simpa using hn)).1
      apply hnot
      simp only [List.map_cons, List.mem_cons]
      left
      rw [ha, hb]

theorem eea_fields {α σ : Type} (interp : Interp α σ) (e : Ev α) (s : CalSt α σ)
    (hok : (execute_event_action interp e s).err = false) :
    (execute_event_action interp e s).heap =
        s.heap ++ reqEvents (interp e.act s.time s.nextId s.world).2 s.nextId ∧
    (execute_event_action interp e s).cancelled =
        s.cancelled ++ reqCancels (interp e.act s.time s.nextId s.world).2 ∧
    (execute_event_action interp e s).nextId =
        s.nextId + reqSchedCount (interp e.act s.time s.nextId s.world).2 ∧
    (execute_event_action interp e s).world = (interp e.act s.time s.nextId s.world).1 := by
  have hok' : (processReqs
      { s with
        fired := s.fired ++ [e]
        world := (interp e.act s.time s.nextId s.world).1 }
      (interp e.act s.time s.nextId s.world).2).err = false := hok
  have hdesc := processReqs_ok_desc _ _ hok'
  rw [eea_as_processReqs interp e s, hdesc]
  exact ⟨rfl, rfl, rfl, rfl⟩

theorem processReqs_append2 {α σ : Type} (s : CalSt α σ) (r1 r2 : List (Req α)) :
    processReqs s (r1 ++ r2) = processReqs (processReqs s r1) r2 := by
  simp [processReqs]

end Devs

namespace Devs

theorem fire_multiset {α σ : Type} (interp : Interp α σ) {e : Ev α} {s : CalSt α σ}
    {G : List (Ev α)} {idx : Nat} (hg : G[idx]? = some e)
    (hok : (execute_event_action interp e s).err = false) :
    ∃ d : List (Ev α),
      (((gatherConcurrent e.time (execute_event_action interp e s)).2.heap ++
        (G ++ (gatherConcurrent e.time (execute_event_action interp e s)).1).eraseIdx idx :
        List (Ev α)) : Multiset (Ev α)) + (↑d + {e}) =
      ↑((s.heap ++ G) ++ reqEvents (interp e.act s.time s.nextId s.world).2 s.nextId) := by
  set X := (gatherConcurrent e.time (execute_event_action interp e s)).2.heap with hX
  set P := (gatherConcurrent e.time (execute_event_action interp e s)).1 with hP
  set E0 := reqEvents (interp e.act s.time s.nextId s.world).2 s.nextId with hE0
  obtain ⟨h1, -, -, -⟩ := eea_fields interp e s hok
  obtain ⟨d0, hp, -⟩ := gatherAux_perm e.time
    (execute_event_action interp e s).heap.length (execute_event_action interp e s)
  rw [show gatherConcurrentAux e.time (execute_event_action interp e s).heap.length
      (execute_event_action interp e s) =
      gatherConcurrent e.time (execute_event_action interp e s) from rfl] at hp
  rw [h1] at hp
  rw [← hP, ← hX] at hp
  have hidx : idx < G.length := mem_getElem?_lt hg
  have hgp : (G ++ P)[idx]? = some e := by
    rw [List.getElem?_append, if_pos hidx]
    exact hg
  have hpe := perm_cons_eraseIdx hgp
  refine ⟨d0, ?_⟩
  have hA : ((G : Multiset (Ev α)) + ↑P) = {e} + ↑((G ++ P).eraseIdx idx) := by
    rw [Multiset.coe_add, Multiset.singleton_add, Multiset.cons_coe]
    exact Multiset.coe_eq_coe.mpr hpe
  have hB : ((s.heap : Multiset (Ev α)) + ↑E0) = ↑d0 + ↑P + ↑X := by
    rw [Multiset.coe_add, Multiset.coe_add, Multiset.coe_add]
    exact Multiset.coe_eq_coe.mpr hp
  simp only [← Multiset.coe_add]
  calc ((X : Multiset (Ev α)) + ↑((G ++ P).eraseIdx idx)) + (↑d0 + {e})
      = ↑d0 + ({e} + ↑((G ++ P).eraseIdx idx)) + ↑X := by abel
    _ = ↑d0 + ((G : Multiset (Ev α)) + ↑P) + ↑X := by rw [hA]
    _ = (↑d0 + ↑P + ↑X) + (G : Multiset (Ev α)) := by abel
    _ = ((s.heap : Multiset (Ev α)) + ↑E0) + ↑G := by rw [hB]
    _ = ((s.heap : Multiset (Ev α)) + ↑G) + ↑E0 := by abel

end Devs

namespace Devs

theorem kernelInv_fire_noop {X Y S : Type} [DecidableEq X]
    {s : CalSt (AAct X) (AWorld X Y S)} {G : List (Ev (AAct X))} {idx : Nat}
    {e : Ev (AAct X)}
    (hk : KernelInv s G) (hg : G[idx]? = some e)
    (hnoop : atomicInterp e.act s.time s.nextId s.world = (s.world, []))
    (hok : (execute_event_action atomicInterp e s).err = false) :
    KernelInv (gatherConcurrent e.time (execute_event_action atomicInterp e s)).2
      ((G ++ (gatherConcurrent e.time (execute_event_action atomicInterp e s)).1).eraseIdx idx) := by
  obtain ⟨d0, hfm⟩ := fire_multiset atomicInterp hg hok
  obtain ⟨h1, h2, h3, h4⟩ := eea_fields atomicInterp e s hok
  have hHO := (gather_heapOnly e.time (execute_event_action atomicInterp e s)).fields
  simp only [hnoop, reqCancels, reqSchedCount, reqEvents, List.append_nil,
    Nat.add_zero] at h2 h3 h4 hfm
  refine kernelInv_transfer hk ?_ ?_ ?_ ?_
  · refine subperm_of_multiset_eq (d0 ++ [e]) ?_
    rw [show ((d0 ++ [e] : List (Ev (AAct X))) : Multiset (Ev (AAct X))) =
        ↑d0 + {e} from by rw [← Multiset.coe_add, Multiset.coe_singleton]]
    exact hfm.symm
  · rw [hHO.1, h2]
  · rw [hHO.2.2.2.2.1, h3]
  · rw [hHO.2.2.2.2.2.1, h4]

end Devs

namespace Devs

theorem kernelInv_fire_internal {X Y S : Type} [DecidableEq X]
    {s : CalSt (AAct X) (AWorld X Y S)} {G : List (Ev (AAct X))} {idx : Nat}
    {e : Ev (AAct X)} {n : String}
    (hk : KernelInv s G) (hg : G[idx]? = some e) (hact : e.act = AAct.internal n)
    (hlive : e.id ∉ s.cancelled)
    (hok : (execute_event_action atomicInterp e s).err = false) :
    KernelInv (gatherConcurrent e.time (execute_event_action atomicInterp e s)).2
      ((G ++ (gatherConcurrent e.time (execute_event_action atomicInterp e s)).1).eraseIdx idx) := by
  have heG : e ∈ G := (perm_cons_eraseIdx hg).mem_iff.mpr (List.mem_cons_self _ _)
  have heSrc : e ∈ s.heap ++ G := List.mem_append.mpr (Or.inr heG)
  obtain ⟨ent, hl⟩ := Option.isSome_iff_exists.mp (hk.named e heSrc n hact)
  have hi2 : (atomicInterp e.act s.time s.nextId s.world).2 =
      (s.world.wires.filter (fun wr => wr.1 = n)).map
        (fun wr => Req.sched s.time
          (AAct.input wr.2.1 (wr.2.2 (ent.model.out ent.model.s)) n) wr.2.1
          "influencer input") ++
      [Req.sched (s.time + ent.model.ta (ent.model.delta_internal ent.model.s))
        (AAct.internal n) n "internal transition"] := by
    rw [hact]
    simp only [atomicInterp, hl]
  have hi1 : (atomicInterp e.act s.time s.nextId s.world).1.atomics =
      aupdate s.world.atomics n
        { model := { ent.model with s := ent.model.delta_internal ent.model.s }
          last_transition_time := s.time
          cancel_internal_transition :=
            some (s.nextId + (s.world.wires.filter (fun wr => wr.1 = n)).length) } := by
    rw [hact]
    simp only [atomicInterp, hl]
  have hKw : reqSchedCount ((s.world.wires.filter (fun wr => wr.1 = n)).map
      (fun wr => Req.sched s.time
        (AAct.input wr.2.1 (wr.2.2 (ent.model.out ent.model.s)) n) wr.2.1
        "influencer input")) = (s.world.wires.filter (fun wr => wr.1 = n)).length :=
    reqSchedCount_map_sched (s.world.wires.filter (fun wr => wr.1 = n))
      (fun _ => s.time)
      (fun wr => AAct.input wr.2.1 (wr.2.2 (ent.model.out ent.model.s)) n)
      (fun wr => wr.2.1) (fun _ => "influencer input")
  have hK : reqSchedCount (atomicInterp e.act s.time s.nextId s.world).2 =
      (s.world.wires.filter (fun wr => wr.1 = n)).length + 1 := by
    rw [hi2, reqSchedCount_append, hKw]
    rfl
  have hC : reqCancels (atomicInterp e.act s.time s.nextId s.world).2 = [] := by
    rw [hi2, reqCancels_append,
      reqCancels_map_sched (s.world.wires.filter (fun wr => wr.1 = n))
        (fun _ => s.time)
        (fun wr => AAct.input wr.2.1 (wr.2.2 (ent.model.out ent.model.s)) n)
        (fun wr => wr.2.1) (fun _ => "influencer input")]
    rfl
  have hE : reqEvents (atomicInterp e.act s.time s.nextId s.world).2 s.nextId =
      reqEvents ((s.world.wires.filter (fun wr => wr.1 = n)).map
        (fun wr => Req.sched s.time
          (AAct.input wr.2.1 (wr.2.2 (ent.model.out ent.model.s)) n) wr.2.1
          "influencer input")) s.nextId ++
      [⟨s.time + ent.model.ta (ent.model.delta_internal ent.model.s), AAct.internal n, n,
        "internal transition",
        s.nextId + (s.world.wires.filter (fun wr => wr.1 = n)).length⟩] := by
    rw [hi2, reqEvents_append, hKw]
    rfl
  have hwacts : ∀ x ∈ reqEvents ((s.world.wires.filter (fun wr => wr.1 = n)).map
      (fun wr => Req.sched s.time
        (AAct.input wr.2.1 (wr.2.2 (ent.model.out ent.model.s)) n) wr.2.1
        "influencer input")) s.nextId, ∀ q, x.act ≠ AAct.internal q := by
    intro x hx q hq
    obtain ⟨b, hb, hbact⟩ :=
      reqEvents_map_sched_act (s.world.wires.filter (fun wr => wr.1 = n))
        (fun _ => s.time)
        (fun wr => AAct.input wr.2.1 (wr.2.2 (ent.model.out ent.model.s)) n)
        (fun wr => wr.2.1) (fun _ => "influencer input") s.nextId x hx
    rw [hbact] at hq
    exact absurd hq (by simp)
  obtain ⟨h1, h2, h3, h4⟩ := eea_fields atomicInterp e s hok
  have hHO := (gather_heapOnly e.time (execute_event_action atomicInterp e s)).fields
  have hs2c : (gatherConcurrent e.time (execute_event_action atomicInterp e s)).2.cancelled =
      s.cancelled := by
    rw [hHO.1, h2, hC, List.append_nil]
  have hs2n : (gatherConcurrent e.time (execute_event_action atomicInterp e s)).2.nextId =
      s.nextId + ((s.world.wires.filter (fun wr => wr.1 = n)).length + 1) := by
    rw [hHO.2.2.2.2.1, h3, hK]
  have hs2w : (gatherConcurrent e.time (execute_event_action atomicInterp e s)).2.world =
      (atomicInterp e.act s.time s.nextId s.world).1 := by
    rw [hHO.2.2.2.2.2.1, h4]
  obtain ⟨d0, hfm⟩ := fire_multiset atomicInterp hg hok
  have hsub : List.Subperm
      ((gatherConcurrent e.time (execute_event_action atomicInterp e s)).2.heap ++
        (G ++ (gatherConcurrent e.time (execute_event_action atomicInterp e s)).1).eraseIdx idx)
      ((s.heap ++ G) ++
        reqEvents (atomicInterp e.act s.time s.nextId s.world).2 s.nextId) := by
    refine subperm_of_multiset_eq (d0 ++ [e]) ?_
    rw [show ((d0 ++ [e] : List (Ev (AAct X))) : Multiset (Ev (AAct X))) =
        ↑d0 + {e} from by rw [← Multiset.coe_add, Multiset.coe_singleton]]
    exact hfm.symm
  have hmemSRC : ∀ x ∈
      (gatherConcurrent e.time (execute_event_action atomicInterp e s)).2.heap ++
        (G ++ (gatherConcurrent e.time (execute_event_action atomicInterp e s)).1).eraseIdx idx,
      x ∈ (s.heap ++ G) ++
        reqEvents (atomicInterp e.act s.time s.nextId s.world).2 s.nextId :=
    fun x hx => hsub.subset hx
  have hnodupSRC : (((s.heap ++ G) ++
      reqEvents (atomicInterp e.act s.time s.nextId s.world).2 s.nextId).map
      (fun x => x.id)).Nodup := by
    rw [List.map_append, List.nodup_append]
    refine ⟨hk.nodup, reqEvents_ids_nodup _ _, ?_⟩
    intro a ha hb
    obtain ⟨x, hx, rfl⟩ := List.mem_map.mp ha
    obtain ⟨y, hy, hxy⟩ := List.mem_map.mp hb
    have h5 := hk.fresh x hx
    have h6 := (reqEvents_bounds _ s.nextId y hy).1
    omega
  have heNot : e ∉
      (gatherConcurrent e.time (execute_event_action atomicInterp e s)).2.heap ++
        (G ++ (gatherConcurrent e.time (execute_event_action atomicInterp e s)).1).eraseIdx idx :=
    not_mem_of_count_eq hfm (List.Nodup.of_map _ hnodupSRC)
  refine ⟨?_, ?_, ?_, ?_, ?_, ?_⟩
  · intro x hx
    rw [hs2n]
    rcases List.mem_append.mp (hmemSRC x hx) with hxo | hxe
    · have := hk.fresh x hxo
      omega
    · have hb := (reqEvents_bounds _ s.nextId x hxe).2
      rw [hK] at hb
      omega
  · intro c hc2
    rw [hs2n]
    rw [hs2c] at hc2
    have := hk.cfresh c hc2
    omega
  · exact nodup_ids_subperm hsub hnodupSRC
  · intro q entq hlq h hh
    rw [hs2w, hi1] at hlq
    rw [hs2n]
    by_cases hqn : q = n
    · subst hqn
      rw [alookup_aupdate_self _ _ _ (by rw [hl]; rfl)] at hlq
      injection hlq with h'
      rw [← h'] at hh
      have hh2 : some (s.nextId + (s.world.wires.filter (fun wr => wr.1 = q)).length) =
          some h := hh
      injection hh2 with hh3
      omega
    · rw [alookup_aupdate_ne _ _ _ _ hqn] at hlq
      have := hk.hfresh q entq hlq h hh
      omega
  · intro q entq hlq x hx hactx hlivex
    rw [hs2w, hi1] at hlq
    rw [hs2c] at hlivex
    rcases List.mem_append.mp (hmemSRC x hx) with hxo | hxe
    · by_cases hqn : q = n
      · subst hqn
        exfalso
        have hpx := hk.pointing q ent hl x hxo hactx hlivex
        have hpe2 := hk.pointing q ent hl e heSrc hact hlive
        have hxid : x.id = e.id := by
          have h12 : some x.id = some e.id := by
            rw [← hpx]
            exact hpe2
          exact Option.some.inj h12
        exact heNot (ids_injective hk.nodup hxo heSrc hxid ▸ hx)
      · rw [alookup_aupdate_ne _ _ _ _ hqn] at hlq
        exact hk.pointing q entq hlq x hxo hactx hlivex
    · rw [hE] at hxe
      rcases List.mem_append.mp hxe with hxw | hxint
      · exact absurd hactx (hwacts x hxw q)
      · have hxeq : x = ⟨s.time + ent.model.ta (ent.model.delta_internal ent.model.s),
            AAct.internal n, n, "internal transition",
            s.nextId + (s.world.wires.filter (fun wr => wr.1 = n)).length⟩ := by
          simpa using hxint
        have h9 : (AAct.internal n : AAct X) = AAct.internal q := by
          rw [hxeq] at hactx
          exact hactx
        injection h9 with h10
        have hq : q = n := h10.symm
        subst hq
        rw [alookup_aupdate_self _ _ _ (by rw [hl]; rfl)] at hlq
        injection hlq with h'
        rw [← h', hxeq]
  · intro x hx q hactx
    rw [hs2w, hi1]
    rw [alookup_isSome_aupdate]
    rcases List.mem_append.mp (hmemSRC x hx) with hxo | hxe
    · exact hk.named x hxo q hactx
    · rw [hE] at hxe
      rcases List.mem_append.mp hxe with hxw | hxint
      · exact absurd hactx (hwacts x hxw q)
      · have hxeq : x = ⟨s.time + ent.model.ta (ent.model.delta_internal ent.model.s),
            AAct.internal n, n, "internal transition",
            s.nextId + (s.world.wires.filter (fun wr => wr.1 = n)).length⟩ := by
          simpa using hxint
        have h9 : (AAct.internal n : AAct X) = AAct.internal q := by
          rw [hxeq] at hactx
          exact hactx
        injection h9 with h10
        have hq : q = n := h10.symm
        subst hq
        rw [hl]
        rfl

end Devs

namespace Devs

theorem kernelInv_fire_input {X Y S : Type} [DecidableEq X]
    {s : CalSt (AAct X) (AWorld X Y S)} {G : List (Ev (AAct X))} {idx : Nat}
    {e : Ev (AAct X)} {n src : String} {v : X} {ent : AtomicEntry X Y S}
    (hk : KernelInv s G) (hg : G[idx]? = some e)
    (hact : e.act = AAct.input n v src)
    (hl : alookup s.world.atomics n = some ent)
    (hok : (execute_event_action atomicInterp e s).err = false) :
    KernelInv (gatherConcurrent e.time (execute_event_action atomicInterp e s)).2
      ((G ++ (gatherConcurrent e.time (execute_event_action atomicInterp e s)).1).eraseIdx idx) := by
  have hi1 : (atomicInterp e.act s.time s.nextId s.world).1.atomics =
      aupdate s.world.atomics n
        { model := { ent.model with
            s := ent.model.delta_external ent.model.s (s.time - ent.last_transition_time) v }
          last_transition_time := s.time
          cancel_internal_transition := some s.nextId } := by
    rw [hact]
    simp only [atomicInterp, hl]
  have hfac : reqEvents (atomicInterp e.act s.time s.nextId s.world).2 s.nextId =
        [⟨s.time + ent.model.ta
            (ent.model.delta_external ent.model.s (s.time - ent.last_transition_time) v),
          AAct.internal n, n, "internal transition", s.nextId⟩] ∧
      reqSchedCount (atomicInterp e.act s.time s.nextId s.world).2 = 1 ∧
      ∀ c ∈ reqCancels (atomicInterp e.act s.time s.nextId s.world).2,
        ent.cancel_internal_transition = some c := by
    rcases hcv : ent.cancel_internal_transition with _ | h0
    · have hi2 : (atomicInterp e.act s.time s.nextId s.world).2 =
          [Req.sched (s.time + ent.model.ta
              (ent.model.delta_external ent.model.s (s.time - ent.last_transition_time) v))
            (AAct.internal n) n "internal transition"] := by
        rw [hact]
        simp only [atomicInterp, hl, hcv, List.nil_append]
      rw [hi2]
      exact ⟨rfl, rfl, by simp [reqCancels]⟩
    · have hi2 : (atomicInterp e.act s.time s.nextId s.world).2 =
          [Req.cancel h0] ++
          [Req.sched (s.time + ent.model.ta
              (ent.model.delta_external ent.model.s (s.time - ent.last_transition_time) v))
            (AAct.internal n) n "internal transition"] := by
        rw [hact]
        simp only [atomicInterp, hl, hcv]
      rw [hi2]
      refine ⟨rfl, rfl, ?_⟩
      intro c hc
      have hch : c = h0 := by simpa [reqCancels] using hc
      rw [hch]
  obtain ⟨h1, h2, h3, h4⟩ := eea_fields atomicInterp e s hok
  have hHO := (gather_heapOnly e.time (execute_event_action atomicInterp e s)).fields
  have hs2c : (gatherConcurrent e.time (execute_event_action atomicInterp e s)).2.cancelled =
      s.cancelled ++ reqCancels (atomicInterp e.act s.time s.nextId s.world).2 := by
    rw [hHO.1, h2]
  have hs2n : (gatherConcurrent e.time (execute_event_action atomicInterp e s)).2.nextId =
      s.nextId + 1 := by
    rw [hHO.2.2.2.2.1, h3, hfac.2.1]
  have hs2w : (gatherConcurrent e.time (execute_event_action atomicInterp e s)).2.world =
      (atomicInterp e.act s.time s.nextId s.world).1 := by
    rw [hHO.2.2.2.2.2.1, h4]
  obtain ⟨d0, hfm⟩ := fire_multiset atomicInterp hg hok
  have hsub : List.Subperm
      ((gatherConcurrent e.time (execute_event_action atomicInterp e s)).2.heap ++
        (G ++ (gatherConcurrent e.time (execute_event_action atomicInterp e s)).1).eraseIdx idx)
      ((s.heap ++ G) ++
        reqEvents (atomicInterp e.act s.time s.nextId s.world).2 s.nextId) := by
    refine subperm_of_multiset_eq (d0 ++ [e]) ?_
    rw [show ((d0 ++ [e] : List (Ev (AAct X))) : Multiset (Ev (AAct X))) =
        ↑d0 + {e} from by rw [← Multiset.coe_add, Multiset.coe_singleton]]
    exact hfm.symm
  have hmemSRC : ∀ x ∈
      (gatherConcurrent e.time (execute_event_action atomicInterp e s)).2.heap ++
        (G ++ (gatherConcurrent e.time (execute_event_action atomicInterp e s)).1).eraseIdx idx,
      x ∈ (s.heap ++ G) ++
        reqEvents (atomicInterp e.act s.time s.nextId s.world).2 s.nextId :=
    fun x hx => hsub.subset hx
  have hnodupSRC : (((s.heap ++ G) ++
      reqEvents (atomicInterp e.act s.time s.nextId s.world).2 s.nextId).map
      (fun x => x.id)).Nodup := by
    rw [List.map_append, List.nodup_append]
    refine ⟨hk.nodup, reqEvents_ids_nodup _ _, ?_⟩
    intro a ha hb
    obtain ⟨x, hx, rfl⟩ := List.mem_map.mp ha
    obtain ⟨y, hy, hxy⟩ := List.mem_map.mp hb
    have h5 := hk.fresh x hx
    have h6 := (reqEvents_bounds _ s.nextId y hy).1
    omega
  refine ⟨?_, ?_, ?_, ?_, ?_, ?_⟩
  · intro x hx
    rw [hs2n]
    rcases List.mem_append.mp (hmemSRC x hx) with hxo | hxe
    · have := hk.fresh x hxo
      omega
    · have hb := (reqEvents_bounds _ s.nextId x hxe).2
      rw [hfac.2.1] at hb
      omega
  · intro c hc2
    rw [hs2n]
    rw [hs2c] at hc2
    rcases List.mem_append.mp hc2 with hco | hcc
    · have := hk.cfresh c hco
      omega
    · have hsome := hfac.2.2 c hcc
      have := hk.hfresh n ent hl c hsome
      omega
  · exact nodup_ids_subperm hsub hnodupSRC
  · intro q entq hlq h hh
    rw [hs2w, hi1] at hlq
    rw [hs2n]
    by_cases hqn : q = n
    · subst hqn
      rw [alookup_aupdate_self _ _ _ (by rw [hl]; rfl)] at hlq
      injection hlq with h'
      rw [← h'] at hh
      have hh2 : some s.nextId = some h := hh
      injection hh2 with hh3
      omega
    · rw [alookup_aupdate_ne _ _ _ _ hqn] at hlq
      have := hk.hfresh q entq hlq h hh
      omega
  · intro q entq hlq x hx hactx hlivex
    rw [hs2w, hi1] at hlq
    have hlivs : x.id ∉ s.cancelled := by
      intro hm
      exact hlivex (by rw [hs2c]; exact List.mem_append_left _ hm)
    rcases List.mem_append.mp (hmemSRC x hx) with hxo | hxe
    · by_cases hqn : q = n
      · subst hqn
        exfalso
        have hpx := hk.pointing q ent hl x hxo hactx hlivs
        apply hlivex
        rw [hs2c]
        refine List.mem_append_right _ ?_
        rcases hcv : ent.cancel_internal_transition with _ | h0
        · rw [hcv] at hpx
          exact absurd hpx (by simp)
        · have hx0 : x.id = h0 := by
            rw [hcv] at hpx
            exact (Option.some.inj hpx).symm
          have hi2 : (atomicInterp e.act s.time s.nextId s.world).2 =
              [Req.cancel h0] ++
              [Req.sched (s.time + ent.model.ta
                  (ent.model.delta_external ent.model.s
                    (s.time - ent.last_transition_time) v))
                (AAct.internal q) q "internal transition"] := by
            rw [hact]
            simp only [atomicInterp, hl, hcv]
          rw [hi2, hx0]
          simp [reqCancels]
      · rw [alookup_aupdate_ne _ _ _ _ hqn] at hlq
        exact hk.pointing q entq hlq x hxo hactx hlivs
    · rw [hfac.1] at hxe
      have hxeq : x = ⟨s.time + ent.model.ta
          (ent.model.delta_external ent.model.s (s.time - ent.last_transition_time) v),
          AAct.internal n, n, "internal transition", s.nextId⟩ := by
        simpa using hxe
      have h9 : (AAct.internal n : AAct X) = AAct.internal q := by
        rw [hxeq] at hactx
        exact hactx
      injection h9 with h10
      have hq : q = n := h10.symm
      subst hq
      rw [alookup_aupdate_self _ _ _ (by rw [hl]; rfl)] at hlq
      injection hlq with h'
      rw [← h', hxeq]
  · intro x hx q hactx
    rw [hs2w, hi1]
    rw [alookup_isSome_aupdate]
    rcases List.mem_append.mp (hmemSRC x hx) with hxo | hxe
    · exact hk.named x hxo q hactx
    · rw [hfac.1] at hxe
      have hxeq : x = ⟨s.time + ent.model.ta
          (ent.model.delta_external ent.model.s (s.time - ent.last_transition_time) v),
          AAct.internal n, n, "internal transition", s.nextId⟩ := by
        simpa using hxe
      have h9 : (AAct.internal n : AAct X) = AAct.internal q := by
        rw [hxeq] at hactx
        exact hactx
      injection h9 with h10
      have hq : q = n := h10.symm
      subst hq
      rw [hl]
      rfl

end Devs

namespace Devs

theorem kernelInv_roundStep {X Y S : Type} [DecidableEq X]
    (select : List String → String) {G : List (Ev (AAct X))}
    {s : CalSt (AAct X) (AWorld X Y S)}
    (h : s.err = true ∨ KernelInv s G) :
    (roundStep atomicInterp select G s).2.err = true ∨
    KernelInv (roundStep atomicInterp select G s).2 (roundStep atomicInterp select G s).1 := by
  rcases roundStep_cases atomicInterp select G s with
    ⟨herr, hr⟩ | ⟨herr, hG, hr⟩ | ⟨herr, hG, hsel, hr⟩ | ⟨herr, hG, idx, hsel, hnone, hr⟩ |
    ⟨herr, hG, idx, e, hsel, hge, hmem, hr⟩ | ⟨herr, hG, idx, e, hsel, hge, hlive, heaerr, hr⟩ |
    ⟨herr, hG, idx, e, hsel, hge, hlive, heaok, hr⟩
  · rw [hr]
    exact Or.inl herr
  · rcases h with h | hk
    · rw [herr] at h
      exact absurd h (by simp)
    · rw [hr]
      right
      subst hG
      exact hk
  · rw [hr]
    left
    rfl
  · rw [hr]
    left
    rfl
  · rcases h with h | hk
    · rw [herr] at h
      exact absurd h (by simp)
    · rw [hr]
      right
      refine kernelInv_transfer hk ?_ rfl rfl rfl
      refine subperm_of_multiset_eq [e] ?_
      have hpe := perm_cons_eraseIdx hge
      have hg2 : (↑G : Multiset (Ev (AAct X))) = {e} + ↑(G.eraseIdx idx) := by
        rw [Multiset.singleton_add, Multiset.cons_coe]
        exact Multiset.coe_eq_coe.mpr hpe
      simp only [← Multiset.coe_add, Multiset.coe_singleton]
      rw [hg2]
      abel
  · rw [hr]
    exact Or.inl heaerr
  · rcases h with h | hk
    · rw [herr] at h
      exact absurd h (by simp)
    · rw [hr]
      right
      cases hacte : e.act with
      | internal n => exact kernelInv_fire_internal hk hge hacte hlive heaok
      | input n v src =>
        rcases hlq : alookup s.world.atomics n with _ | ent
        · refine kernelInv_fire_noop hk hge ?_ heaok
          rw [hacte]
          simp only [atomicInterp, hlq]
        · exact kernelInv_fire_input hk hge hacte hlq heaok

end Devs

namespace Devs

theorem kernelInv_calStep {X Y S : Type} [DecidableEq X]
    {select : List String → String} {m m' : Machine (AAct X) (AWorld X Y S)}
    (hstep : CalStep atomicInterp select m m')
    (h : m.cal.err = true ∨ KernelInv m.cal m.group) :
    m'.cal.err = true ∨ KernelInv m'.cal m'.group := by
  rcases hstep with @⟨e, es, s', hG, herr, hcn, hle⟩ | @⟨e, es, s', hG, herr, hcn, hgt⟩ |
    @⟨s', hG, herr, hcn⟩ | @⟨G', s', hG, herr, hr⟩
  · rcases h with h | hk
    · rw [herr] at h
      exact absurd h (by simp)
    · right
      rw [hG] at hk
      obtain ⟨d, hperm, -⟩ := calendar_next_perm m.cal
      simp only [hcn] at hperm
      have hCN := (calendar_next_heapOnly m.cal).fields
      simp only [hcn] at hCN
      have hAT := advance_time_fields e.time s'
      refine kernelInv_transfer hk ?_ ?_ ?_ ?_
      · show List.Subperm ((advance_time e.time s').heap ++ (e :: es)) (m.cal.heap ++ [])
        rw [hAT.1, List.append_nil]
        refine subperm_of_multiset_eq d ?_
        have hm2 : (↑m.cal.heap : Multiset (Ev (AAct X))) = ↑(d ++ (e :: es) ++ s'.heap) :=
          Multiset.coe_eq_coe.mpr hperm
        rw [hm2]
        simp only [← Multiset.coe_add]
        abel
      · show (advance_time e.time s').cancelled = m.cal.cancelled
        rw [hAT.2.1, hCN.1]
      · show (advance_time e.time s').nextId = m.cal.nextId
        rw [hAT.2.2.1, hCN.2.2.2.2.1]
      · show (advance_time e.time s').world = m.cal.world
        rw [hAT.2.2.2.1, hCN.2.2.2.2.2.1]
  · rcases h with h | hk
    · rw [herr] at h
      exact absurd h (by simp)
    · right
      rw [hG] at hk
      obtain ⟨d, hperm, -⟩ := calendar_next_perm m.cal
      simp only [hcn] at hperm
      have hCN := (calendar_next_heapOnly m.cal).fields
      simp only [hcn] at hCN
      have hAT := advance_time_fields s'.endTime s'
      refine kernelInv_transfer hk ?_ ?_ ?_ ?_
      · show List.Subperm ((advance_time s'.endTime s').heap ++ []) (m.cal.heap ++ [])
        rw [hAT.1, List.append_nil, List.append_nil]
        refine subperm_of_multiset_eq (d ++ (e :: es)) ?_
        have hm2 : (↑m.cal.heap : Multiset (Ev (AAct X))) = ↑(d ++ (e :: es) ++ s'.heap) :=
          Multiset.coe_eq_coe.mpr hperm
        rw [hm2]
        simp only [← Multiset.coe_add]
        abel
      · show (advance_time s'.endTime s').cancelled = m.cal.cancelled
        rw [hAT.2.1, hCN.1]
      · show (advance_time s'.endTime s').nextId = m.cal.nextId
        rw [hAT.2.2.1, hCN.2.2.2.2.1]
      · show (advance_time s'.endTime s').world = m.cal.world
        rw [hAT.2.2.2.1, hCN.2.2.2.2.2.1]
  · rcases h with h | hk
    · rw [herr] at h
      exact absurd h (by simp)
    · right
      rw [hG] at hk
      obtain ⟨d, hperm, -⟩ := calendar_next_perm m.cal
      simp only [hcn] at hperm
      have hCN := (calendar_next_heapOnly m.cal).fields
      simp only [hcn] at hCN
      refine kernelInv_transfer hk ?_ ?_ ?_ ?_
      · show List.Subperm (s'.heap ++ []) (m.cal.heap ++ [])
        rw [List.append_nil, List.append_nil]
        refine subperm_of_multiset_eq d ?_
        have hm2 : (↑m.cal.heap : Multiset (Ev (AAct X))) =
            ((d ++ [] ++ s'.heap : List (Ev (AAct X))) : Multiset (Ev (AAct X))) :=
          Multiset.coe_eq_coe.mpr hperm
        rw [hm2]
        simp only [← Multiset.coe_add, Multiset.coe_nil]
        abel
      · exact hCN.1
      · exact hCN.2.2.2.2.1
      · exact hCN.2.2.2.2.2.1
  · have h2 := kernelInv_roundStep select h
    simp only [hr] at h2
    exact h2

theorem kernelInv_reach {X Y S : Type} [DecidableEq X]
    {select : List String → String} {m m' : Machine (AAct X) (AWorld X Y S)}
    (hreach : Reach atomicInterp select m m')
    (h : m.cal.err = true ∨ KernelInv m.cal m.group) :
    m'.cal.err = true ∨ KernelInv m'.cal m'.group := by
  induction hreach with
  | refl => exact h
  | tail hr hstep ih => exact kernelInv_calStep hstep ih

end Devs

namespace Devs

theorem singlePending_of_kernelInv {X Y S : Type} [DecidableEq X]
    {m : Machine (AAct X) (AWorld X Y S)} (hk : KernelInv m.cal m.group) :
    SinglePendingInternal m := by
  intro herr n
  have hmem : ∀ x ∈ pendingLiveInternals m n,
      x ∈ m.cal.heap ++ m.group ∧ x.id ∉ m.cal.cancelled ∧ x.act = AAct.internal n := by
    intro x hx
    unfold pendingLiveInternals at hx
    have h2 := List.mem_filter.mp hx
    exact ⟨h2.1, (of_decide_eq_true h2.2).1, (of_decide_eq_true h2.2).2⟩
  have hnodups : ((pendingLiveInternals m n).map (fun e => e.id)).Nodup := by
    unfold pendingLiveInternals
    exact List.Nodup.sublist ((List.filter_sublist _).map _) hk.nodup
  by_cases hsome : (alookup m.cal.world.atomics n).isSome
  · obtain ⟨ent, hl⟩ := Option.isSome_iff_exists.mp hsome
    rcases hcv : ent.cancel_internal_transition with _ | h0
    · have hempty : pendingLiveInternals m n = [] := by
        rw [List.eq_nil_iff_forall_not_mem]
        intro x hx
        obtain ⟨hxm, hlive, hactx⟩ := hmem x hx
        have hp := hk.pointing n ent hl x hxm hactx hlive
        rw [hcv] at hp
        exact absurd hp (by simp)
      rw [hempty]
      simp
    · refine length_le_one_of_const_ids (c := h0) hnodups ?_
      intro x hx
      obtain ⟨hxm, hlive, hactx⟩ := hmem x hx
      have hp := hk.pointing n ent hl x hxm hactx hlive
      rw [hcv] at hp
      exact (Option.some.inj hp).symm
  · have hempty : pendingLiveInternals m n = [] := by
      rw [List.eq_nil_iff_forall_not_mem]
      intro x hx
      obtain ⟨hxm, hlive, hactx⟩ := hmem x hx
      exact hsome (hk.named x hxm n hactx)
    rw [hempty]
    simp

end Devs

namespace Devs

theorem except_bind_ok {ε γ δ : Type} (a : γ) (f : γ → Except ε δ) :
    (Except.ok a >>= f : Except ε δ) = f a := rfl

theorem except_bind_err {ε γ δ : Type} (e : ε) (f : γ → Except ε δ) :
    (Except.error e >>= f : Except ε δ) = Except.error e := rfl

theorem alookup_isSome_mem_keys {β : Type} :
    ∀ (l : List (String × β)) (q : String),
      (alookup l q).isSome → q ∈ l.map Prod.fst
  | [], q, h => by simp [alookup] at h
  | (k, v) :: r, q, h => by
    by_cases hk : k = q
    · simp [hk]
    · simp only [alookup, if_neg hk] at h
      simp only [List.map_cons, List.mem_cons]
      exact Or.inr (alookup_isSome_mem_keys r q h)

theorem buildComponents_inv {X Y S : Type} (compound : String) (now : Time)
    (specs : List (String × AtomicModel X Y S)) :
    ∀ (nid : Nat) (ents : List (String × AtomicEntry X Y S)) (reqs : List (Req (AAct X))),
      (specs.map Prod.fst).Nodup →
      buildComponents compound now specs nid = Except.ok (ents, reqs) →
      reqCancels reqs = [] ∧
      reqSchedCount reqs = specs.length ∧
      ents.map Prod.fst = specs.map Prod.fst ∧
      (∀ cn ent, alookup ents cn = some ent →
        ∀ x ∈ reqEvents reqs nid, x.act = AAct.internal cn →
          ent.cancel_internal_transition = some x.id) ∧
      (∀ cn ent, alookup ents cn = some ent →
        ∀ h, ent.cancel_internal_transition = some h → nid ≤ h ∧ h < nid + specs.length) ∧
      (∀ x ∈ reqEvents reqs nid, ∀ cn, x.act = AAct.internal cn →
        (alookup ents cn).isSome) := by
  induction specs with
  | nil =>
    intro nid ents reqs hnd hbc
    simp only [buildComponents, Except.ok.injEq, Prod.mk.injEq] at hbc
    obtain ⟨h1, h2⟩ := hbc
    subst h1
    subst h2
    refine ⟨rfl, rfl, rfl, ?_, ?_, ?_⟩
    · intro cn ent hl
      simp [alookup] at hl
    · intro cn ent hl
      simp [alookup] at hl
    · intro x hx
      simp [reqEvents] at hx
  | cons p rest ih =>
    rcases p with ⟨cn, mo⟩
    intro nid ents reqs hnd hbc
    rw [List.map_cons] at hnd
    have hcnot : cn ∉ rest.map Prod.fst := (List.nodup_cons.mp hnd).1
    have hndr : (rest.map Prod.fst).Nodup := (List.nodup_cons.mp hnd).2
    by_cases hcc : cn = compound
    · simp [buildComponents, hcc] at hbc
    · by_cases hce : cn = ""
      · have hai : atomicInit cn mo now nid =
            Except.error "Model name should not be empty" := by
          simp [atomicInit, ioModelCtorCheck, hce, except_bind_err]
        simp [buildComponents, hcc, hai, except_bind_err] at hbc
      · have hai : atomicInit cn mo now nid = Except.ok
            (({
                model := mo
                last_transition_time := 0
                cancel_internal_transition := some nid } : AtomicEntry X Y S),
             [Req.sched (now + mo.ta mo.s) (AAct.internal cn) cn "internal transition"]) := by
          simp [atomicInit, ioModelCtorCheck, hce, except_bind_ok]
        rcases hbr : buildComponents compound now rest (nid + 1) with err | pr
        · simp [buildComponents, hcc, hai, hbr, except_bind_ok, except_bind_err] at hbc
        · rcases pr with ⟨entsR, reqsR⟩
          have IH := ih (nid + 1) entsR reqsR hndr hbr
          simp only [buildComponents, if_neg hcc, hai, hbr, except_bind_ok,
            Except.ok.injEq, Prod.mk.injEq, List.singleton_append] at hbc
          obtain ⟨h1, h2⟩ := hbc
          subst h1
          subst h2
          have hlc : ∀ q : String,
              alookup ((cn, ({
                model := mo
                last_transition_time := 0
                cancel_internal_transition := some nid } : AtomicEntry X Y S)) :: entsR) q =
              if cn = q then some ({
                model := mo
                last_transition_time := 0
                cancel_internal_transition := some nid } : AtomicEntry X Y S)
              else alookup entsR q :=
            fun q => rfl
          have hEv : reqEvents
              (Req.sched (now + mo.ta mo.s) (AAct.internal cn) cn "internal transition"
                :: reqsR) nid =
              (⟨now + mo.ta mo.s, AAct.internal cn, cn, "internal transition", nid⟩ :
                Ev (AAct X)) :: reqEvents reqsR (nid + 1) := rfl
          refine ⟨?_, ?_, ?_, ?_, ?_, ?_⟩
          · exact IH.1
          · show 1 + reqSchedCount reqsR = rest.length + 1
            rw [IH.2.1]
            omega
          · rw [List.map_cons, List.map_cons, IH.2.2.1]
          · intro cn' ent' hl' x hx hactx
            rw [hlc] at hl'
            rw [hEv] at hx
            rcases List.mem_cons.mp hx with rfl | hxr
            · by_cases hq : cn = cn'
              · rw [if_pos hq] at hl'
                injection hl' with h'
                rw [← h']
              · exfalso
                have h9 : (AAct.internal cn : AAct X) = AAct.internal cn' := hactx
                injection h9 with h10
                exact hq h10
            · by_cases hq : cn = cn'
              · exfalso
                subst hq
                have hsome := IH.2.2.2.2.2 x hxr cn hactx
                have hmemk := alookup_isSome_mem_keys entsR cn hsome
                rw [IH.2.2.1] at hmemk
                exact hcnot hmemk
              · rw [if_neg hq] at hl'
                exact IH.2.2.2.1 cn' ent' hl' x hxr hactx
          · intro cn' ent' hl' h hh
            rw [hlc] at hl'
            simp only [List.length_cons]
            by_cases hq : cn = cn'
            · rw [if_pos hq] at hl'
              injection hl' with h'
              rw [← h'] at hh
              have hh2 : some nid = some h := hh
              injection hh2 with hh3
              omega
            · rw [if_neg hq] at hl'
              have := IH.2.2.2.2.1 cn' ent' hl' h hh
              omega
          · intro x hx cn' hactx
            rw [hEv] at hx
            rcases List.mem_cons.mp hx with rfl | hxr
            · have h9 : (AAct.internal cn : AAct X) = AAct.internal cn' := hactx
              injection h9 with h10
              rw [hlc, if_pos h10]
              rfl
            · by_cases hq : cn = cn'
              · rw [hlc, if_pos hq]
                rfl
              · rw [hlc, if_neg hq]
                exact IH.2.2.2.2.2 x hxr cn' hactx

end Devs

namespace Devs

theorem kernelInv_fresh_start {X Y S : Type} [DecidableEq X]
    (start endT eps : Time) (ents : List (String × AtomicEntry X Y S))
    (wires : List (String × String × (Y → X))) (allreqs : List (Req (AAct X)))
    (hcan : reqCancels allreqs = [])
    (hpoint : ∀ cn ent, alookup ents cn = some ent →
      ∀ x ∈ reqEvents allreqs 0, x.act = AAct.internal cn →
        ent.cancel_internal_transition = some x.id)
    (hhf : ∀ cn ent, alookup ents cn = some ent →
      ∀ h, ent.cancel_internal_transition = some h → h < reqSchedCount allreqs)
    (hnamed : ∀ x ∈ reqEvents allreqs 0, ∀ cn, x.act = AAct.internal cn →
      (alookup ents cn).isSome)
    (hok : (processReqs (mkCal [] [] start endT eps 0
      (⟨ents, wires, [], []⟩ : AWorld X Y S)) allreqs).err = false) :
    KernelInv (processReqs (mkCal [] [] start endT eps 0
      (⟨ents, wires, [], []⟩ : AWorld X Y S)) allreqs) [] := by
  have hdesc := processReqs_ok_desc allreqs _ hok
  have hH : (processReqs (mkCal [] [] start endT eps 0
      (⟨ents, wires, [], []⟩ : AWorld X Y S)) allreqs).heap = reqEvents allreqs 0 := by
    rw [hdesc]
    simp [mkCal]
  have hCn : (processReqs (mkCal [] [] start endT eps 0
      (⟨ents, wires, [], []⟩ : AWorld X Y S)) allreqs).cancelled = reqCancels allreqs := by
    rw [hdesc]
    simp [mkCal]
  have hN : (processReqs (mkCal [] [] start endT eps 0
      (⟨ents, wires, [], []⟩ : AWorld X Y S)) allreqs).nextId = reqSchedCount allreqs := by
    rw [hdesc]
    simp [mkCal]
  have hW : (processReqs (mkCal [] [] start endT eps 0
      (⟨ents, wires, [], []⟩ : AWorld X Y S)) allreqs).world =
      (⟨ents, wires, [], []⟩ : AWorld X Y S) := by
    rw [hdesc]
    simp [mkCal]
  refine ⟨?_, ?_, ?_, ?_, ?_, ?_⟩
  · intro x hx
    rw [List.append_nil, hH] at hx
    rw [hN]
    have := (reqEvents_bounds allreqs 0 x hx).2
    omega
  · intro c hc
    rw [hCn, hcan] at hc
    exact absurd hc (by simp)
  · rw [List.append_nil, hH]
    exact reqEvents_ids_nodup _ _
  · intro n ent hl h hh
    rw [hW] at hl
    rw [hN]
    exact hhf n ent hl h hh
  · intro n ent hl x hx hactx hlive
    rw [hW] at hl
    rw [List.append_nil, hH] at hx
    exact hpoint n ent hl x hx hactx
  · intro x hx n hactx
    rw [List.append_nil, hH] at hx
    rw [hW]
    exact hnamed x hx n hactx

end Devs

namespace Devs

theorem processReqs_foldl_inputs {α σ : Type} {β : Type} (g : β → Req α) (l : List β)
    (s : CalSt α σ) :
    processReqs s (l.map g) = l.foldl (fun s2 b => processReq s2 (g b)) s := by
  simp only [processReqs]
  rw [List.foldl_map]

theorem kernelInv_initSystem {X Y S : Type} [DecidableEq X]
    (cname : String) (start endT eps : Time)
    (specs : List (String × AtomicModel X Y S))
    (wires : List (String × String × (Y → X)))
    (inputs : List (Time × String × X))
    (hnd : (specs.map Prod.fst).Nodup) :
    (initSystem cname start endT eps specs wires inputs).err = true ∨
    KernelInv (initSystem cname start endT eps specs wires inputs) [] := by
  rcases hci : compoundInit cname specs start 0 with err | pr
  · left
    simp [initSystem, hci]
  · rcases pr with ⟨ents, reqs⟩
    have hbc : buildComponents cname start specs 0 = Except.ok (ents, reqs) := by
      by_cases hcne : cname = ""
      · simp [compoundInit, ioModelCtorCheck, hcne, except_bind_err] at hci
      · by_cases hemp : specs.isEmpty
        · simp [compoundInit, ioModelCtorCheck, hcne, hemp, except_bind_ok] at hci
        · simpa [compoundInit, ioModelCtorCheck, hcne, hemp, except_bind_ok] using hci
    obtain ⟨hc1, hc2, hc3, hc4, hc5, hc6⟩ :=
      buildComponents_inv cname start specs 0 ents reqs hnd hbc
    have hfold : initSystem cname start endT eps specs wires inputs =
        processReqs (mkCal [] [] start endT eps 0 (⟨ents, wires, [], []⟩ : AWorld X Y S))
          (reqs ++ inputs.map (fun inp => Req.sched inp.1
            (AAct.input inp.2.1 inp.2.2 inp.2.1) inp.2.1 "external input")) := by
      rw [processReqs_append2]
      rw [processReqs_foldl_inputs
        (fun inp => Req.sched inp.1 (AAct.input inp.2.1 inp.2.2 inp.2.1) inp.2.1
          "external input") inputs]
      simp only [initSystem, hci]
      rfl
    have himapc : reqCancels (inputs.map (fun inp => Req.sched inp.1
        (AAct.input inp.2.1 inp.2.2 inp.2.1) inp.2.1 "external input")) = [] :=
      reqCancels_map_sched inputs (fun inp => inp.1)
        (fun inp => AAct.input inp.2.1 inp.2.2 inp.2.1) (fun inp => inp.2.1)
        (fun _ => "external input")
    cases hfe : (processReqs (mkCal [] [] start endT eps 0
        (⟨ents, wires, [], []⟩ : AWorld X Y S))
        (reqs ++ inputs.map (fun inp => Req.sched inp.1
          (AAct.input inp.2.1 inp.2.2 inp.2.1) inp.2.1 "external input"))).err with
    | true =>
      left
      rw [hfold]
      exact hfe
    | false =>
      right
      rw [hfold]
      refine kernelInv_fresh_start start endT eps ents wires _ ?_ ?_ ?_ ?_ hfe
      · rw [reqCancels_append, hc1, himapc]
        rfl
      · intro cn ent hl x hx hactx
        rw [reqEvents_append] at hx
        rcases List.mem_append.mp hx with hxr | hxi
        · exact hc4 cn ent hl x hxr hactx
        · exfalso
          obtain ⟨b, hb, hbact⟩ := reqEvents_map_sched_act inputs (fun inp => inp.1)
            (fun inp => AAct.input inp.2.1 inp.2.2 inp.2.1) (fun inp => inp.2.1)
            (fun _ => "external input") (0 + reqSchedCount reqs) x hxi
          rw [hbact] at hactx
          exact absurd hactx (by simp)
      · intro cn ent hl h hh
        have hb5 := hc5 cn ent hl h hh
        rw [reqSchedCount_append, hc2]
        omega
      · intro x hx cn hactx
        rw [reqEvents_append] at hx
        rcases List.mem_append.mp hx with hxr | hxi
        · exact hc6 x hxr cn hactx
        · exfalso
          obtain ⟨b, hb, hbact⟩ := reqEvents_map_sched_act inputs (fun inp => inp.1)
            (fun inp => AAct.input inp.2.1 inp.2.2 inp.2.1) (fun inp => inp.2.1)
            (fun _ => "external input") (0 + reqSchedCount reqs) x hxi
          rw [hbact] at hactx
          exact absurd hactx (by simp)

end Devs

namespace Devs

/-- C2: in any run of a simulation built from a compound of atomic components
with pairwise distinct names (as the C++ component factory map guarantees),
every machine state reachable from the freshly constructed simulation has, for
each atomic model, at most one non-cancelled pending internal-transition event
in the calendar: the external-input path first invokes the stored cancel
callback and only then schedules the new internal transition, and the
internal-transition path schedules its successor only after its own event has
left the heap. -/
theorem C2_single_pending_internal {X Y S : Type} [DecidableEq X]
    (select : List String → String) (cname : String) (start endT eps : Time)
    (specs : List (String × AtomicModel X Y S))
    (wires : List (String × String × (Y → X)))
    (inputs : List (Time × String × X))
    (m : Machine (AAct X) (AWorld X Y S))
    (hnd : (specs.map Prod.fst).Nodup)
    (hreach : Reach atomicInterp select
      ⟨initSystem cname start endT eps specs wires inputs, []⟩ m) :
    SinglePendingInternal m := by
  have h1 : (⟨initSystem cname start endT eps specs wires inputs, []⟩ :
      Machine (AAct X) (AWorld X Y S)).cal.err = true ∨
      KernelInv (⟨initSystem cname start endT eps specs wires inputs, []⟩ :
        Machine (AAct X) (AWorld X Y S)).cal
        (⟨initSystem cname start endT eps specs wires inputs, []⟩ :
          Machine (AAct X) (AWorld X Y S)).group :=
    kernelInv_initSystem cname start endT eps specs wires inputs hnd
  have h2 := kernelInv_reach hreach h1
  rcases h2 with h2 | h2
  · intro herr
    rw [h2] at herr
    exact absurd herr (by simp)
  · exact singlePending_of_kernelInv h2

/-- Witness for C2: the one-atomic simulation fixture has distinct component
names, and at its initial instant (reachable by the empty run) every atomic
has at most one pending internal transition. -/
theorem C2_single_pending_internal_witness :
    (([("A", incModel)].map Prod.fst).Nodup) ∧ SinglePendingInternal oneAtomicInit :=
  ⟨by decide, C2_single_pending_internal fifo_selector "root" 0 10 1 [("A", incModel)]
    [] [] oneAtomicInit (by decide) Relation.ReflTransGen.refl⟩

end Devs

namespace Devs

/-- Witness for C10: in the one-atomic fixture (constructed with
last_transition_time zero), an external input delivered at time 5 hands
delta_external the elapsed time 5 - 0, observable in the stored state. -/
theorem C10_elapsed_from_zero_witness :
    ∃ ent', alookup (atomicInterp (AAct.input "A" (9 : ℤ) "A") 5 3
        (oneAtomicWorld elapsedModel)).1.atomics "A" = some ent' ∧
      ent'.model.s = (oneAtomicEntry elapsedModel).model.delta_external
        (oneAtomicEntry elapsedModel).model.s (5 - 0) 9 :=
  (C10_elapsed_from_zero "A" elapsedModel 7 0).2 (oneAtomicWorld elapsedModel)
    (oneAtomicEntry elapsedModel) 9 "A" 5 3 rfl rfl

end Devs
